import Mathlib

/-!
Verification of the document ingestion and index-coordination core of the
spyglass repository (`crates/spyglass/src/documents/mod.rs` and
`crates/migrations/src/m20220823_000001_migrate_search_schema.rs`).

The Rust code is shallowly embedded: database tables, the search index and
the embedding queue become explicit state records threaded through pure
functions; fallible operations return `Except`; `HashMap`s become
association lists where a later insert shadows an earlier one (lookups take
the first match on a cons-at-front list).  Components of the repository that
are not part of the two source files (the `entities` and
`spyglass_searcher` crates) are modelled from the specification; each such
definition says so in its doc comment.
-/

set_option maxHeartbeats 1000000

namespace Spyglass

/-- Decidable equality of `Except` runs, used to state concrete runs. -/
instance {ε α : Type} [DecidableEq ε] [DecidableEq α] : DecidableEq (Except ε α) :=
  fun x y =>
    match x, y with
    | .ok a, .ok b =>
      if h : a = b then isTrue (h ▸ rfl) else isFalse fun hc => h (Except.ok.inj hc)
    | .error a, .error b =>
      if h : a = b then isTrue (h ▸ rfl) else isFalse fun hc => h (Except.error.inj hc)
    | .ok _, .error _ => isFalse fun hc => Except.noConfusion hc
    | .error _, .ok _ => isFalse fun hc => Except.noConfusion hc

/-- A tag pair `(label, value)`; labels are modelled by their canonical
string form, which the source produces both via `Debug` formatting of
`TagType` (in `_get_tag_ids`) and as the stored `tag.label` column. -/
abbrev TagPair := String × String

/-- A row of the `tags` table. -/
structure TagModel where
  id : Nat
  label : String
  value : String
deriving Repr, DecidableEq

/-- The `tags` table: rows plus the next auto-increment id. -/
structure TagDb where
  rows : List TagModel
  nextId : Nat
deriving Repr, DecidableEq

/-- First row whose `(label, value)` matches the pair. -/
def TagDb.find (db : TagDb) (p : TagPair) : Option TagModel :=
  db.rows.find? fun t => t.label == p.1 && t.value == p.2

/-- Modelled from the spec: `tag::get_or_create_many` /
`tag::get_or_create_many_string` (in the `entities` crate, not under
`src/`): "a single batched operation that inserts missing rows and returns
all rows".  One model is returned per requested pair, in request order;
missing rows are created with the next free id. -/
def get_or_create_many (db : TagDb) : List TagPair → List TagModel × TagDb
  | [] => ([], db)
  | p :: ps =>
    match db.find p with
    | some t =>
      let r := get_or_create_many db ps
      (t :: r.1, r.2)
    | none =>
      let t : TagModel := ⟨db.nextId, p.1, p.2⟩
      let r := get_or_create_many ⟨db.rows ++ [t], db.nextId + 1⟩ ps
      (t :: r.1, r.2)

/-- The per-batch tag cache `HashMap<String, i64>`: uid string to tag id. -/
abbrev TagCache := List (String × Nat)

/-- The cache key `format!("{tag_type:?}:{value}")` of `_get_tag_ids`. -/
def uidOf (p : TagPair) : String := p.1 ++ ":" ++ p.2

/-- Cache lookup (first match; the list is extended at the front, so this is
the `HashMap` lookup of the most recent insert). -/
def cacheFind (c : TagCache) (u : String) : Option Nat :=
  (c.find? fun e => e.1 == u).map (·.2)

/-- Result of one `_get_tag_ids` call: the ids, the updated cache and tag
table, and the trace of `get_or_create_many` requests issued (`[]` or one
batched request). -/
structure ResolveOut where
  tids : List Nat
  cache : TagCache
  tagDb : TagDb
  trace : List (List TagPair)
deriving Repr, DecidableEq

/-- The first loop of `_get_tag_ids`: push cached ids into `tids`, collect
uncached pairs into `to_search`. -/
def splitByCache (cache : TagCache) : List TagPair → List Nat × List TagPair
  | [] => ([], [])
  | p :: ps =>
    let r := splitByCache cache ps
    match cacheFind cache (uidOf p) with
    | some i => (i :: r.1, r.2)
    | none => (r.1, p :: r.2)

/-- `_get_tag_ids` (documents/mod.rs, lines 578-611): cached pairs resolve
from the cache; the remaining pairs are sent to `get_or_create_many` in one
batch, whose resulting ids are appended to `tids` and written back to the
cache keyed by `"{label}:{value}"`. -/
def _get_tag_ids (db : TagDb) (tags : List TagPair) (cache : TagCache) : ResolveOut :=
  let sp := splitByCache cache tags
  if sp.2.isEmpty then ⟨sp.1, cache, db, []⟩
  else
    let gc := get_or_create_many db sp.2
    ⟨sp.1 ++ gc.1.map (·.id),
     gc.1.foldl (fun c t => (uidOf (t.label, t.value), t.id) :: c) cache,
     gc.2,
     [sp.2]⟩

/-- `_get_tag_ids_string` (documents/mod.rs, lines 539-572): identical to
`_get_tag_ids` once tag labels are modelled by their canonical strings (the
source differs only in using `Display` instead of `Debug` formatting). -/
def _get_tag_ids_string (db : TagDb) (tags : List (String × String)) (cache : TagCache) :
    ResolveOut :=
  _get_tag_ids db tags cache

/-- Modelled from the spec: `Url::parse` of the external `url` crate.  A
string parses when it has an `http://` or `https://` scheme followed by a
non-empty remainder; the host is the remainder up to the first slash, and
`url.as_str()` / `url.to_string()` render the original string. -/
structure UrlT where
  text : String
  host : Option String
deriving Repr, DecidableEq

/-- Host part of the remainder after the scheme. -/
def hostOf (rest : List Char) : Option String :=
  let h := rest.takeWhile fun ch => ch ≠ '/'
  if h.isEmpty then none else some (String.mk h)

/-- Modelled from the spec: URL parsing (external `url` crate).  Rendering
is the identity on parseable strings.  Character lists are used so that the
definition evaluates by kernel reduction. -/
def parseUrl (s : String) : Option UrlT :=
  let cs := s.data
  if ("https://".data).isPrefixOf cs then
    let rest := cs.drop 8
    if rest.isEmpty then none else some ⟨s, hostOf rest⟩
  else if ("http://".data).isPrefixOf cs then
    let rest := cs.drop 7
    if rest.isEmpty then none else some ⟨s, hostOf rest⟩
  else none

/-- A document stored in the search index. -/
structure IndexDoc where
  title : String
  domain : String
  url : String
  content : String
  tags : List Nat
deriving Repr, DecidableEq

/-- The search index: entries keyed by `doc_id` plus a counter used to
allocate fresh opaque ids. -/
structure SearchIndex where
  docs : List (String × IndexDoc)
  nextId : Nat
deriving Repr, DecidableEq

/-- Modelled from the spec: the opaque `doc_id` allocated by the index on
first insert.  Any injective generator is a faithful model; this one makes
freshness checkable through the string length. -/
def genDocId (k : Nat) : String := String.mk (List.replicate (k + 1) 'd')

/-- Modelled from the spec: `IndexWriter.upsert` (the `spyglass_searcher`
crate, not under `src/`): "if `doc_id` is present, overwrites; otherwise
allocates.  Returns the id that is now authoritative." -/
def SearchIndex.upsert (idx : SearchIndex) (docId : Option String) (d : IndexDoc) :
    String × SearchIndex :=
  match docId with
  | some i => (i, ⟨(idx.docs.filter fun e => e.1 != i) ++ [(i, d)], idx.nextId⟩)
  | none =>
    let i := genDocId idx.nextId
    (i, ⟨idx.docs ++ [(i, d)], idx.nextId + 1⟩)

/-- Modelled from the spec: `delete_many_by_id`; missing ids are silent
no-ops. -/
def SearchIndex.deleteManyById (idx : SearchIndex) (ids : List String) : SearchIndex :=
  ⟨idx.docs.filter fun e => !(ids.contains e.1), idx.nextId⟩

/-- Lookup of an index entry by doc id. -/
def SearchIndex.findDoc (idx : SearchIndex) (i : String) : Option IndexDoc :=
  (idx.docs.find? fun e => e.1 == i).map (·.2)

/-- A row of the `indexed_document` table. -/
structure IndexedDocModel where
  id : Nat
  domain : String
  url : String
  open_url : Option String
  doc_id : String
  updated_at : Nat
deriving Repr, DecidableEq

/-- A staged `indexed_document::ActiveModel` insert (no primary key yet). -/
structure PendingDoc where
  domain : String
  url : String
  open_url : Option String
  doc_id : String
  updated_at : Nat
deriving Repr, DecidableEq

/-- The relational registry: `indexed_document` rows, the next primary key,
and the document-tag join table (a set of `(document pk, tag id)` pairs). -/
structure Registry where
  rows : List IndexedDocModel
  nextPk : Nat
  tagJoins : List (Nat × Nat)
deriving Repr, DecidableEq

/-- Modelled from the spec: `indexed_document::insert_many`; rows receive
consecutive primary keys. -/
def Registry.insertMany (reg : Registry) (docs : List PendingDoc) : Registry :=
  docs.foldl
    (fun r d =>
      { r with
        rows := r.rows ++ [⟨r.nextPk, d.domain, d.url, d.open_url, d.doc_id, d.updated_at⟩],
        nextPk := r.nextPk + 1 })
    reg

/-- Modelled from the spec: `ActiveModel::save` of an existing row — the row
with the same primary key is replaced. -/
def Registry.saveRow (reg : Registry) (m : IndexedDocModel) : Registry :=
  { reg with rows := reg.rows.map fun r => if r.id == m.id then m else r }

/-- Insert a join row unless already present (association upsert). -/
def insertJoin (joins : List (Nat × Nat)) (x : Nat × Nat) : List (Nat × Nat) :=
  if joins.contains x then joins else joins ++ [x]

/-- Modelled from the spec: `indexed_document::insert_tags_for_docs` —
upsert the association rows for each document and tag id. -/
def Registry.insertTagsForDocs (reg : Registry) (ms : List IndexedDocModel)
    (tids : List Nat) : Registry :=
  { reg with
    tagJoins := ms.foldl (fun j m => tids.foldl (fun j2 t => insertJoin j2 (m.id, t)) j)
      reg.tagJoins }

/-- Modelled from the spec: `indexed_document::insert_tags_for_docs_by_id`
with `replace = false`. -/
def Registry.insertTagsForDocsById (reg : Registry) (pks : List Nat)
    (tids : List Nat) : Registry :=
  { reg with
    tagJoins := pks.foldl (fun j pk => tids.foldl (fun j2 t => insertJoin j2 (pk, t)) j)
      reg.tagJoins }

/-- Modelled from the spec: `indexed_document::remove_tags_for_docs_by_id` —
delete the association rows of the given documents and tag ids. -/
def Registry.removeTagsForDocsById (reg : Registry) (pks : List Nat)
    (tids : List Nat) : Registry :=
  { reg with
    tagJoins := reg.tagJoins.filter fun jt => !(pks.contains jt.1 && tids.contains jt.2) }

/-- Modelled from the spec: batch lookup of registry rows by url. -/
def Registry.findByUrls (reg : Registry) (urls : List String) : List IndexedDocModel :=
  reg.rows.filter fun m => urls.contains m.url

/-- Modelled from the spec: batch lookup of registry rows by doc id. -/
def Registry.findByDocIds (reg : Registry) (ids : List String) : List IndexedDocModel :=
  reg.rows.filter fun m => ids.contains m.doc_id

/-- Modelled from the spec: `indexed_document::get_tag_ids_by_doc_id` — the
tag ids joined to the row with the given doc id (none: empty result). -/
def Registry.getTagIdsByDocId (reg : Registry) (d : String) : List Nat :=
  match reg.rows.find? (fun m => m.doc_id == d) with
  | some m => (reg.tagJoins.filter fun jt => jt.1 == m.id).map (·.2)
  | none => []

/-- The coordinated stores of `AppState`: registry, tag table, search index,
embedding queue (rows `(doc_id, registry pk, content)`), and whether an
embedding backend is configured (`state.embedding_api`). -/
structure AppState where
  registry : Registry
  tagDb : TagDb
  index : SearchIndex
  embeddingQueue : List (String × Nat × String)
  embeddingConfigured : Bool
deriving Repr, DecidableEq

/-- First-match lookup in an association list built by cons-at-front folds
(the `HashMap` lookup). -/
def lookupAssocStr {α : Type} (m : List (String × α)) (k : String) : Option α :=
  (m.find? fun e => e.1 == k).map (·.2)

/-- A crawl result (`crate::crawler::CrawlResult`, fields used by
`process_crawl_results`). -/
structure CrawlResult where
  url : String
  open_url : Option String
  title : Option String
  content : Option String
  tags : List TagPair
deriving Repr, DecidableEq

/-- The return value of `process_crawl_results`. -/
structure AddUpdateResult where
  num_added : Nat
  num_updated : Nat
deriving Repr, DecidableEq

/-- The per-iteration accumulator of the `for crawl_result in results` loop
of `process_crawl_results`: tag cache, tag table, index, `tag_map`,
`embedding_map`, staged `inserts` and `updates`, `added_docs`, and the
accumulated trace of `get_or_create_many` requests. -/
structure IngestAcc where
  cache : TagCache
  tagDb : TagDb
  index : SearchIndex
  tagMap : List (String × List Nat)
  embMap : List (String × String)
  inserts : List PendingDoc
  updates : List IndexedDocModel
  addedDocs : List String
  rtTrace : List (List TagPair)
deriving Repr, DecidableEq

/-- The main loop of `process_crawl_results` (documents/mod.rs, lines
169-217).  A URL that fails to parse propagates an error through `?`,
aborting the loop. -/
def ingestLoop (cfg : Bool) (now : Nat) (idMap : List (String × String))
    (modelMap : List (String × IndexedDocModel)) (globalTids : List Nat) :
    List CrawlResult → IngestAcc → Except String IngestAcc
  | [], acc => .ok acc
  | r :: rest, acc =>
    let ro := _get_tag_ids acc.tagDb r.tags acc.cache
    let tids := ro.tids ++ globalTids
    let tagMap2 := (r.url, tids) :: acc.tagMap
    match parseUrl r.url with
    | none => .error ("unable to parse url: " ++ r.url)
    | some u =>
      let host := (u.host).getD ""
      let up := acc.index.upsert (lookupAssocStr idMap r.url)
        ⟨r.title.getD "", host, u.text, r.content.getD "", tids⟩
      let docId := up.1
      let embMap2 :=
        match r.content with
        | some c => if cfg then (docId, c) :: acc.embMap else acc.embMap
        | none => acc.embMap
      let acc2 : IngestAcc :=
        { acc with
          cache := ro.cache, tagDb := ro.tagDb, index := up.2, tagMap := tagMap2,
          embMap := embMap2, rtTrace := acc.rtTrace ++ ro.trace }
      match lookupAssocStr modelMap docId with
      | none =>
        ingestLoop cfg now idMap modelMap globalTids rest
          { acc2 with
            addedDocs := acc2.addedDocs ++ [u.text],
            inserts := acc2.inserts ++ [⟨host, u.text, r.open_url, docId, now⟩] }
      | some m =>
        ingestLoop cfg now idMap modelMap globalTids rest
          { acc2 with updates := acc2.updates ++ [{ m with updated_at := now }] }

/-- Registry-plus-queue state threaded through the transactional sections of
`process_crawl_results`. -/
structure TxState where
  registry : Registry
  queue : List (String × Nat × String)
deriving Repr, DecidableEq

/-- The `for update in updates` loop (documents/mod.rs, lines 221-242): save
each staged update, enqueue its embedding if one was remembered, and upsert
its tag associations. -/
def applyUpdates (embMap : List (String × String)) (tagMap : List (String × List Nat)) :
    List IndexedDocModel → TxState → TxState
  | [], ts => ts
  | m :: rest, ts =>
    let t1 : TxState := ⟨ts.registry.saveRow m, ts.queue⟩
    let t2 : TxState :=
      match lookupAssocStr embMap m.doc_id with
      | some content => ⟨t1.registry, t1.queue ++ [(m.doc_id, m.id, content)]⟩
      | none => t1
    let t3 : TxState :=
      match lookupAssocStr tagMap m.url with
      | some tids => ⟨t2.registry.insertTagsForDocs [m] tids, t2.queue⟩
      | none => t2
    applyUpdates embMap tagMap rest t3

/-- The `for added in added_entries` loop (documents/mod.rs, lines 256-270):
enqueue remembered embeddings and upsert tag associations for the reloaded
new rows. -/
def applyAdded (embMap : List (String × String)) (tagMap : List (String × List Nat)) :
    List IndexedDocModel → TxState → TxState
  | [], ts => ts
  | m :: rest, ts =>
    let t1 : TxState :=
      match lookupAssocStr embMap m.doc_id with
      | some content => ⟨ts.registry, ts.queue ++ [(m.doc_id, m.id, content)]⟩
      | none => ts
    let t2 : TxState :=
      match lookupAssocStr tagMap m.url with
      | some tids => ⟨t1.registry.insertTagsForDocs [m] tids, t1.queue⟩
      | none => t1
    applyAdded embMap tagMap rest t2

/-- The `id_map` of `process_crawl_results`: url to doc id, built by
`HashMap` inserts (cons at the front, first-match lookup). -/
def mkIdMap (existing : List IndexedDocModel) : List (String × String) :=
  existing.foldl (fun acc m => (m.url, m.doc_id) :: acc) []

/-- The `model_map` of `process_crawl_results`: doc id to registry row. -/
def mkModelMap (existing : List IndexedDocModel) : List (String × IndexedDocModel) :=
  existing.foldl (fun acc m => (m.doc_id, m) :: acc) []

/-- The accumulator at loop entry: cache, tag table and trace from the
global-tag resolution, the index after the pre-delete, everything else
empty. -/
def initIngestAcc (s : AppState) (docIdList : List String) (g : ResolveOut) : IngestAcc :=
  ⟨g.cache, g.tagDb, s.index.deleteManyById docIdList, [], [], [], [], [], g.trace⟩

/-- The post-loop section of `process_crawl_results` (documents/mod.rs,
lines 220-282): insert staged rows, save staged updates (with embedding
enqueues and tag joins), commit, reload the added rows by url, apply their
embeddings and tag joins, and return the counters. -/
def pcrFinish (s : AppState) (existing : List IndexedDocModel) (acc : IngestAcc) :
    AddUpdateResult × AppState × List (List TagPair) :=
  let reg1 := s.registry.insertMany acc.inserts
  let t1 := applyUpdates acc.embMap acc.tagMap acc.updates ⟨reg1, s.embeddingQueue⟩
  let addedEntries := t1.registry.findByUrls acc.addedDocs
  let t2 := applyAdded acc.embMap acc.tagMap addedEntries t1
  (⟨addedEntries.length, existing.length⟩,
   { s with
     registry := t2.registry, tagDb := acc.tagDb, index := acc.index,
     embeddingQueue := t2.queue },
   acc.rtTrace)

/-- `process_crawl_results` (documents/mod.rs, lines 118-283).  Returns the
counters, the final state, and the trace of `get_or_create_many` requests
issued while resolving tags.  Database reads are modelled as total; the
index `delete_many_by_id`, `save` and both commits are state updates. -/
def process_crawl_results (s : AppState) (now : Nat) (results : List CrawlResult)
    (globalTags : List TagPair) :
    Except String (AddUpdateResult × AppState × List (List TagPair)) :=
  if results.isEmpty then .ok (⟨0, 0⟩, s, [])
  else
    let existing := s.registry.findByUrls (results.map (·.url))
    let idMap := mkIdMap existing
    let modelMap := mkModelMap existing
    let g := _get_tag_ids s.tagDb globalTags []
    match ingestLoop s.embeddingConfigured now idMap modelMap g.tids results
        (initIngestAcc s (idMap.map (·.2)) g) with
    | .error e => .error e
    | .ok acc => .ok (pcrFinish s existing acc)

/-- A parser result (`libnetrunner::parser::ParseResult`, fields used by
`process_records`). -/
structure ParseRecord where
  canonical_url : Option String
  title : Option String
  content : String
deriving Repr, DecidableEq

/-- Accumulator of the `for crawl_result in results` loop of
`process_records`. -/
structure RecordsAcc where
  index : SearchIndex
  updates : List PendingDoc
  addedDocs : List String
deriving Repr, DecidableEq

/-- The main loop of `process_records` (documents/mod.rs, lines 346-399).  A
missing or unparseable `canonical_url` skips the record with a logged
warning.  After the upsert the source tests `!id_map.contains_key(&new_id)`,
checking the returned doc id against the url-keyed map. -/
def recordsLoop (idMap : List (String × String)) (tagList : List Nat) :
    List ParseRecord → RecordsAcc → RecordsAcc
  | [], acc => acc
  | r :: rest, acc =>
    match r.canonical_url with
    | none => recordsLoop idMap tagList rest acc
    | some cu =>
      match parseUrl cu with
      | none => recordsLoop idMap tagList rest acc
      | some u =>
        let host := (u.host).getD ""
        let up := acc.index.upsert (lookupAssocStr idMap cu)
          ⟨r.title.getD "", host, u.text, r.content, tagList⟩
        let newId := up.1
        if (lookupAssocStr idMap newId).isSome then
          recordsLoop idMap tagList rest { acc with index := up.2 }
        else
          recordsLoop idMap tagList rest
            { index := up.2,
              updates := acc.updates ++ [⟨host, u.text, some u.text, newId, 0⟩],
              addedDocs := acc.addedDocs ++ [u.text] }

/-- `process_records` (documents/mod.rs, lines 290-423).  Lens tags are
given as canonical `(label, value)` pairs (the `TagType::from_str` filter of
the source keeps exactly the labels with a canonical form).  The staged
rows' `updated_at` is the store default, modelled as `0`. -/
def process_records (s : AppState) (lensTags : List TagPair) (results : List ParseRecord) :
    Except String (List IndexedDocModel × AppState) :=
  let parsedUrls := results.map fun r => r.canonical_url.getD ""
  let existing := s.registry.findByUrls parsedUrls
  let idMap := existing.foldl (fun acc m => (m.url, m.doc_id) :: acc) []
  let docIdList := idMap.map (·.2)
  let index1 := s.index.deleteManyById docIdList
  let gc := get_or_create_many s.tagDb lensTags
  let tagList := gc.1.map (·.id)
  let acc := recordsLoop idMap tagList results ⟨index1, [], []⟩
  let reg1 := s.registry.insertMany acc.updates
  let addedEntries := reg1.findByUrls acc.addedDocs
  let reg2 := if addedEntries.isEmpty then reg1
    else reg1.insertTagsForDocs addedEntries tagList
  .ok (addedEntries, { s with registry := reg2, tagDb := gc.2, index := acc.index })

/-- Whether a parser result carries a parseable canonical url (the records
`process_records` does not skip). -/
def recordParses (r : ParseRecord) : Bool :=
  match r.canonical_url with
  | some cu => (parseUrl cu).isSome
  | none => false

/-- A document retrieved from the search index
(`spyglass_searcher::RetrievedDocument`, fields used by `update_tags`). -/
structure RetrievedDocument where
  doc_id : String
  title : String
  domain : String
  url : String
  content : String
deriving Repr, DecidableEq

/-- A tag modification request (documents/mod.rs, lines 32-36). -/
structure TagModification where
  add : Option (List TagPair) := none
  remove : Option (List TagPair) := none
deriving Repr, DecidableEq

/-- `update_tags` (documents/mod.rs, lines 431-533).  `failFetch` lists the
doc ids for which `get_tag_ids_by_doc_id` returns a database error (the
source logs such a document and leaves it out of `tag_map`).  Note the
remove step: the source passes `add_ids` to `remove_tags_for_docs_by_id`. -/
def update_tags (s : AppState) (failFetch : List String)
    (documents : List RetrievedDocument) (tag_modifications : TagModification) :
    Except String AppState :=
  let r1 :=
    match tag_modifications.add with
    | some toAdd => _get_tag_ids_string s.tagDb toAdd []
    | none => ⟨[], [], s.tagDb, []⟩
  let addIds := r1.tids
  let r2 :=
    match tag_modifications.remove with
    | some toRemove => _get_tag_ids_string r1.tagDb toRemove r1.cache
    | none => ⟨[], r1.cache, r1.tagDb, []⟩
  let removeIds := r2.tids
  let documentIds := documents.map (·.doc_id)
  let docUuids := (s.registry.findByDocIds documentIds).map (·.id)
  let st0 : AppState := { s with tagDb := r2.tagDb }
  let step1 : AppState × Bool :=
    if addIds.isEmpty then (st0, false)
    else ({ st0 with registry := st0.registry.insertTagsForDocsById docUuids addIds }, true)
  let step2 : AppState × Bool :=
    if removeIds.isEmpty then step1
    else ({ step1.1 with
            registry := step1.1.registry.removeTagsForDocsById docUuids addIds }, true)
  let s1 := step2.1
  let updated := step2.2
  if updated then
    let tagMap := documents.foldl
      (fun tm doc =>
        if failFetch.contains doc.doc_id then tm
        else (doc.doc_id, (doc, s1.registry.getTagIdsByDocId doc.doc_id)) :: tm)
      ([] : List (String × (RetrievedDocument × List Nat)))
    let index1 := s1.index.deleteManyById documentIds
    let index2 := tagMap.foldl
      (fun ix e =>
        (ix.upsert (some e.2.1.doc_id)
          ⟨e.2.1.title, e.2.1.domain, e.2.1.url, e.2.1.content, e.2.2⟩).2)
      index1
    .ok { s1 with index := index2 }
  else .ok s1

/-- A tantivy document: an ordered list of `(field, text)` entries. -/
abbrev TantivyDoc := List (String × String)

/-- `Document::get_first(field).as_text()`. -/
def getFirst (d : TantivyDoc) (f : String) : Option String :=
  (d.find? fun e => e.1 == f).map (·.2)

/-- The old-to-new field mapping table of `migrate_document`
(m20220823_000001_migrate_search_schema.rs, lines 61-70). -/
def migrationFieldMap : List (String × String) :=
  [("domain", "domain"), ("title", "title"), ("description", "description"),
   ("description", "content"), ("url", "url")]

/-- `migrate_document` (m20220823_000001_migrate_search_schema.rs, lines
52-82): write the registry `doc_id` as the new `id` field, then copy each
mapped field.  The source `unwrap`s each lookup; a missing or non-text field
is modelled as `none`. -/
def migrate_document (docId : String) (oldDoc : TantivyDoc) : Option TantivyDoc :=
  migrationFieldMap.foldl
    (fun acc fp =>
      match acc, getFirst oldDoc fp.1 with
      | some d, some v => some (d ++ [(fp.2, v)])
      | _, _ => none)
    (some [("id", docId)])

/-- The state with empty stores used by concrete runs: registry and tag ids
start at 1 (auto-increment), index ids at 0. -/
def initState (cfg : Bool) : AppState :=
  ⟨⟨[], 1, []⟩, ⟨[], 1⟩, ⟨[], 0⟩, [], cfg⟩

/-- The state component of a `process_crawl_results` run, when it
succeeded. -/
def pcrState (e : Except String (AddUpdateResult × AppState × List (List TagPair))) :
    Option AppState :=
  match e with
  | .ok x => some x.2.1
  | .error _ => none

/-- The counters of a `process_crawl_results` run, when it succeeded. -/
def pcrResult (e : Except String (AddUpdateResult × AppState × List (List TagPair))) :
    Option AddUpdateResult :=
  match e with
  | .ok x => some x.1
  | .error _ => none

/-- The resolver trace of a `process_crawl_results` run (empty if the run
failed). -/
def pcrTrace (e : Except String (AddUpdateResult × AppState × List (List TagPair))) :
    List (List TagPair) :=
  match e with
  | .ok x => x.2.2
  | .error _ => []

/-- Whether an `Except` run succeeded. -/
def isOkE {α : Type} (e : Except String α) : Bool :=
  match e with
  | .ok _ => true
  | .error _ => false

/-- The state component of a `process_records` run, when it succeeded. -/
def prState (e : Except String (List IndexedDocModel × AppState)) : Option AppState :=
  match e with
  | .ok x => some x.2
  | .error _ => none

/-- The state component of an `update_tags` run, when it succeeded. -/
def utState (e : Except String AppState) : Option AppState :=
  match e with
  | .ok x => some x
  | .error _ => none

/-! Concrete fixtures used by counterexamples and witnesses. -/

/-- A state holding one registered, indexed document. -/
def oneDocState : AppState :=
  ⟨⟨[⟨1, "a.test", "https://a.test/x", none, "x1", 0⟩], 2, []⟩, ⟨[], 1⟩,
   ⟨[("x1", ⟨"T", "a.test", "https://a.test/x", "C", []⟩)], 0⟩, [], false⟩

/-- `oneDocState` with the index id allocator strictly above every
registered doc id length. -/
def oneDocStateFresh : AppState :=
  ⟨⟨[⟨1, "a.test", "https://a.test/x", none, "x1", 0⟩], 2, []⟩, ⟨[], 1⟩,
   ⟨[("x1", ⟨"T", "a.test", "https://a.test/x", "C", []⟩)], 5⟩, [], false⟩

/-- The retrieved form of the document of `oneDocState`. -/
def oneDoc : RetrievedDocument := ⟨"x1", "T", "a.test", "https://a.test/x", "C"⟩

/-- A crawl result whose url does not parse. -/
def badCrawl : CrawlResult := ⟨"nota url", none, some "B", some "CB", []⟩

/-- A crawl result with a fresh parseable url. -/
def goodCrawl : CrawlResult := ⟨"https://a.test/ok", none, some "G", some "CG", []⟩

/-- A crawl result for the url already registered in `oneDocState`. -/
def reCrawl : CrawlResult := ⟨"https://a.test/x", none, some "T", some "C", [("source", "x")]⟩

/-- A parser result whose canonical url is already registered in
`oneDocState`. -/
def dupRecord : ParseRecord := ⟨some "https://a.test/x", some "T2", "C2"⟩

/-- A parser result without a canonical url. -/
def badRecord : ParseRecord := ⟨none, some "B", "CB"⟩

/-- An old-schema tantivy document for the migration. -/
def oldSchemaDoc : TantivyDoc :=
  [("id", "d1"), ("domain", "a.test"), ("title", "T"), ("description", "D"),
   ("url", "https://a.test/1")]

/-- Registry invariants (spec D2 plus primary-key discipline of the store):
urls unique, primary keys unique and below the auto-increment counter. -/
def registryWf (reg : Registry) : Prop :=
  (reg.rows.map (·.url)).Nodup ∧ (reg.rows.map (·.id)).Nodup ∧
    ∀ m ∈ reg.rows, m.id < reg.nextPk

instance (reg : Registry) : Decidable (registryWf reg) := by
  unfold registryWf
  infer_instance

/-- Freshness of registered doc ids with respect to the index id allocator:
a sufficient, checkable bound (allocated ids `genDocId k` have length
`k + 1`). -/
def docIdFresh (s : AppState) : Prop :=
  ∀ m ∈ s.registry.rows, m.doc_id.length ≤ s.index.nextId

instance (s : AppState) : Decidable (docIdFresh s) := by
  unfold docIdFresh
  infer_instance

/-- `d2` holds the rows of `d1` plus rows appended later. -/
def TagDbExtends (d1 d2 : TagDb) : Prop :=
  ∃ extra, d2.rows = d1.rows ++ extra

/-- Number of `get_or_create_many` requests of a trace that contain the
pair `p`. -/
def countSent (tr : List (List TagPair)) (p : TagPair) : Nat :=
  tr.countP fun q => decide (p ∈ q)

end Spyglass

namespace Spyglass

/-! ### Association list and `find?` helpers -/

theorem find?_append_some {α : Type} (f : α → Bool) {l1 : List α} (l2 : List α) {a : α}
    (h : l1.find? f = some a) : (l1 ++ l2).find? f = some a := by
  induction l1 with
  | nil => simp [List.find?] at h
  | cons x xs ih =>
    rw [List.cons_append]
    rw [List.find?] at h ⊢
    cases hx : f x with
    | true => rw [hx] at h; simpa [hx] using h
    | false => rw [hx] at h; simp only [hx]; exact ih h

theorem find?_append_none {α : Type} (f : α → Bool) {l1 : List α} (l2 : List α)
    (h : l1.find? f = none) : (l1 ++ l2).find? f = l2.find? f := by
  induction l1 with
  | nil => simp
  | cons x xs ih =>
    rw [List.find?] at h
    cases hx : f x with
    | true => rw [hx] at h; simp at h
    | false => rw [hx] at h; rw [List.cons_append, List.find?, hx]; exact ih h

/-! ### `get_or_create_many` characterization -/

theorem tagDbExtends_refl (d : TagDb) : TagDbExtends d d := ⟨[], by simp⟩

theorem tagDbExtends_trans {d1 d2 d3 : TagDb} (h1 : TagDbExtends d1 d2)
    (h2 : TagDbExtends d2 d3) : TagDbExtends d1 d3 := by
  obtain ⟨e1, he1⟩ := h1
  obtain ⟨e2, he2⟩ := h2
  exact ⟨e1 ++ e2, by rw [he2, he1, List.append_assoc]⟩

theorem tagDb_find_extends {d1 d2 : TagDb} {p : TagPair} {m : TagModel}
    (hext : TagDbExtends d1 d2) (h : d1.find p = some m) : d2.find p = some m := by
  obtain ⟨extra, he⟩ := hext
  unfold TagDb.find at h ⊢
  rw [he]
  exact find?_append_some _ extra h

theorem goc_extends (db : TagDb) (ps : List TagPair) :
    TagDbExtends db (get_or_create_many db ps).2 := by
  induction ps generalizing db with
  | nil => exact tagDbExtends_refl db
  | cons p ps ih =>
    rw [get_or_create_many]
    cases h : db.find p with
    | some t => simpa using ih db
    | none =>
      simp only
      refine tagDbExtends_trans ?_ (ih ⟨db.rows ++ [⟨db.nextId, p.1, p.2⟩], db.nextId + 1⟩)
      exact ⟨[⟨db.nextId, p.1, p.2⟩], rfl⟩

theorem goc_find_self {db : TagDb} {p : TagPair} (h : db.find p = none) :
    TagDb.find ⟨db.rows ++ [⟨db.nextId, p.1, p.2⟩], db.nextId + 1⟩ p
      = some ⟨db.nextId, p.1, p.2⟩ := by
  unfold TagDb.find at h ⊢
  rw [find?_append_none _ _ h]
  simp

/-- Pointwise characterization: one model per requested pair, in request
order, each findable in the resulting table with matching label and value. -/
theorem goc_models {db : TagDb} {ps : List TagPair} :
    List.Forall₂
      (fun (m : TagModel) (p : TagPair) =>
        m.label = p.1 ∧ m.value = p.2 ∧ (get_or_create_many db ps).2.find p = some m)
      (get_or_create_many db ps).1 ps := by
  induction ps generalizing db with
  | nil => simp [get_or_create_many]
  | cons p ps ih =>
    rw [get_or_create_many]
    cases h : db.find p with
    | some t =>
      simp only
      constructor
      · have hmem := List.mem_of_find?_eq_some h
        have hpred := List.find?_some h
        simp only [Bool.and_eq_true, beq_iff_eq] at hpred
        refine ⟨hpred.1, hpred.2, ?_⟩
        exact tagDb_find_extends (goc_extends db ps) h
      · refine (@ih db).imp ?_
        intro m q hq
        exact hq
    | none =>
      simp only
      constructor
      · refine ⟨rfl, rfl, ?_⟩
        have hfind := goc_find_self h
        exact tagDb_find_extends (goc_extends _ ps) hfind
      · refine (@ih ⟨db.rows ++ [⟨db.nextId, p.1, p.2⟩], db.nextId + 1⟩).imp ?_
        intro m q hq
        exact hq

theorem goc_length (db : TagDb) (ps : List TagPair) :
    (get_or_create_many db ps).1.length = ps.length :=
  goc_models.length_eq

/-- Replay: if every requested pair already resolves (in `db2`) to the model
produced earlier, then the batched call returns the same models and leaves
the table unchanged. -/
theorem goc_replay {db2 : TagDb} {ps : List TagPair} {ms : List TagModel}
    (h : List.Forall₂ (fun (m : TagModel) (p : TagPair) => db2.find p = some m) ms ps) :
    get_or_create_many db2 ps = (ms, db2) := by
  induction h with
  | nil => rfl
  | @cons m p ms ps hmp _ ih =>
    rw [get_or_create_many, hmp]
    simp [ih]

end Spyglass

namespace Spyglass

/-! ### `_get_tag_ids` characterization -/

theorem forall₂_exists_left {α β : Type} {R : α → β → Prop} {l1 : List α} {l2 : List β}
    (h : List.Forall₂ R l1 l2) {b : β} (hb : b ∈ l2) : ∃ a ∈ l1, R a b := by
  induction h with
  | nil => exact absurd hb (List.not_mem_nil b)
  | @cons a b2 as bs hab _ ih =>
    rcases List.mem_cons.1 hb with rfl | hmem
    · exact ⟨a, List.mem_cons_self a as, hab⟩
    · obtain ⟨a2, ha2, hr⟩ := ih hmem
      exact ⟨a2, List.mem_cons_of_mem a ha2, hr⟩

theorem splitByCache_eq (c : TagCache) (ts : List TagPair) :
    splitByCache c ts
      = (ts.filterMap (fun p => cacheFind c (uidOf p)),
         ts.filter (fun p => (cacheFind c (uidOf p)).isNone)) := by
  induction ts with
  | nil => rfl
  | cons p ps ih =>
    rw [splitByCache, ih]
    cases h : cacheFind c (uidOf p) with
    | some i => simp [List.filterMap_cons, List.filter_cons, h]
    | none => simp [List.filterMap_cons, List.filter_cons, h]

/-- Unfolding of `_get_tag_ids` when every pair is cached. -/
theorem getTagIds_all_cached {c : TagCache} {ts : List TagPair} (db : TagDb)
    (h : (splitByCache c ts).2 = []) :
    _get_tag_ids db ts c = ⟨(splitByCache c ts).1, c, db, []⟩ := by
  simp [_get_tag_ids, h]

/-- Unfolding of `_get_tag_ids` when some pair is uncached. -/
theorem getTagIds_uncached {c : TagCache} {ts : List TagPair} (db : TagDb)
    (h : (splitByCache c ts).2.isEmpty = false) :
    _get_tag_ids db ts c
      = ⟨(splitByCache c ts).1
           ++ (get_or_create_many db (splitByCache c ts).2).1.map (·.id),
         (get_or_create_many db (splitByCache c ts).2).1.foldl
           (fun c2 t => (uidOf (t.label, t.value), t.id) :: c2) c,
         (get_or_create_many db (splitByCache c ts).2).2,
         [(splitByCache c ts).2]⟩ := by
  simp [_get_tag_ids, h]

/-- The ids returned by `_get_tag_ids`: the cached ids in input order,
followed by the ids `get_or_create_many` returns for the uncached pairs in
input order. -/
theorem getTagIds_tids (db : TagDb) (ts : List TagPair) (c : TagCache) :
    (_get_tag_ids db ts c).tids
      = ts.filterMap (fun p => cacheFind c (uidOf p))
        ++ (get_or_create_many db
              (ts.filter fun p => (cacheFind c (uidOf p)).isNone)).1.map (·.id) := by
  cases h : (splitByCache c ts).2 with
  | nil =>
    rw [getTagIds_all_cached db h]
    have h2 := h
    rw [splitByCache_eq] at h2
    simp only at h2
    rw [h2, splitByCache_eq]
    simp [get_or_create_many]
  | cons a l =>
    rw [getTagIds_uncached db (by rw [h]; rfl)]
    have h2 := splitByCache_eq c ts
    simp only [h2]

theorem splitByCache_length (c : TagCache) (ts : List TagPair) :
    (splitByCache c ts).1.length + (splitByCache c ts).2.length = ts.length := by
  induction ts with
  | nil => rfl
  | cons p ps ih =>
    rw [splitByCache]
    cases h : cacheFind c (uidOf p) with
    | some i =>
      simp only [h, List.length_cons]
      omega
    | none =>
      simp only [h, List.length_cons]
      omega

theorem getTagIds_length (db : TagDb) (ts : List TagPair) (c : TagCache) :
    (_get_tag_ids db ts c).tids.length = ts.length := by
  have hsp := splitByCache_length c ts
  cases h : (splitByCache c ts).2 with
  | nil =>
    rw [getTagIds_all_cached db h]
    rw [h] at hsp
    simpa using hsp
  | cons a l =>
    rw [getTagIds_uncached db (by rw [h]; rfl)]
    have h2 := goc_length db (splitByCache c ts).2
    simp only [List.length_append, List.length_map, h2]
    exact hsp

theorem getTagIds_extends (db : TagDb) (ts : List TagPair) (c : TagCache) :
    TagDbExtends db (_get_tag_ids db ts c).tagDb := by
  cases h : (splitByCache c ts).2 with
  | nil =>
    rw [getTagIds_all_cached db h]
    exact tagDbExtends_refl db
  | cons a l =>
    rw [getTagIds_uncached db (by rw [h]; rfl)]
    exact goc_extends db (splitByCache c ts).2

/-- Replay: against any conservative extension of the resulting tag table,
`_get_tag_ids` returns the same ids, cache and trace, and leaves the table
unchanged. -/
theorem getTagIds_replay {db : TagDb} {ts : List TagPair} {c : TagCache} {db2 : TagDb}
    (hext : TagDbExtends (_get_tag_ids db ts c).tagDb db2) :
    _get_tag_ids db2 ts c
      = ⟨(_get_tag_ids db ts c).tids, (_get_tag_ids db ts c).cache, db2,
         (_get_tag_ids db ts c).trace⟩ := by
  cases h : (splitByCache c ts).2 with
  | nil =>
    rw [getTagIds_all_cached db h] at hext ⊢
    rw [getTagIds_all_cached db2 h]
  | cons a l =>
    have hne : (splitByCache c ts).2.isEmpty = false := by rw [h]; rfl
    rw [getTagIds_uncached db hne] at hext ⊢
    rw [getTagIds_uncached db2 hne]
    have hmods := @goc_models db ((splitByCache c ts).2)
    have hrep : get_or_create_many db2 (splitByCache c ts).2
        = ((get_or_create_many db (splitByCache c ts).2).1, db2) := by
      apply goc_replay
      refine hmods.imp ?_
      intro m p hp
      exact tagDb_find_extends hext hp.2.2
    rw [hrep]

/-! ### Cache lemmas for the round-trip bound -/

theorem cacheFind_cons_isSome {c : TagCache} {u : String} (e : String × Nat)
    (h : cacheFind c u ≠ none) : cacheFind (e :: c) u ≠ none := by
  unfold cacheFind at h ⊢
  rw [List.find?]
  cases he : (e.1 == u) with
  | true => simp
  | false => simpa using h

theorem cacheFind_writes_isSome {u : String} (ms : List TagModel) (c : TagCache)
    (h : cacheFind c u ≠ none ∨ ∃ m ∈ ms, uidOf (m.label, m.value) = u) :
    cacheFind (ms.foldl (fun c2 t => (uidOf (t.label, t.value), t.id) :: c2) c) u ≠ none := by
  induction ms generalizing c with
  | nil =>
    rcases h with h | ⟨m, hm, _⟩
    · exact h
    · exact absurd hm (List.not_mem_nil m)
  | cons m ms ih =>
    rw [List.foldl_cons]
    apply ih
    rcases h with h | ⟨m2, hm2, hu⟩
    · exact Or.inl (cacheFind_cons_isSome _ h)
    · rcases List.mem_cons.1 hm2 with rfl | hmem
      · refine Or.inl ?_
        unfold cacheFind
        rw [List.find?]
        simp [hu]
      · exact Or.inr ⟨m2, hmem, hu⟩

theorem getTagIds_cache_mono {db : TagDb} {ts : List TagPair} {c : TagCache} {u : String}
    (h : cacheFind c u ≠ none) : cacheFind (_get_tag_ids db ts c).cache u ≠ none := by
  cases he : (splitByCache c ts).2 with
  | nil => rw [getTagIds_all_cached db he]; exact h
  | cons a l =>
    rw [getTagIds_uncached db (by rw [he]; rfl)]
    exact cacheFind_writes_isSome _ c (Or.inl h)

/-- Every pair sent in a request of the trace was uncached at call entry and
comes from the input list. -/
theorem getTagIds_trace_sent {db : TagDb} {ts : List TagPair} {c : TagCache}
    {q : List TagPair} {p : TagPair} (hq : q ∈ (_get_tag_ids db ts c).trace)
    (hp : p ∈ q) : cacheFind c (uidOf p) = none ∧ p ∈ ts := by
  cases he : (splitByCache c ts).2 with
  | nil => rw [getTagIds_all_cached db he] at hq; simp at hq
  | cons a l =>
    rw [getTagIds_uncached db (by rw [he]; rfl)] at hq
    simp only [List.mem_singleton] at hq
    subst hq
    rw [splitByCache_eq] at hp
    simp only [List.mem_filter, Option.isNone_iff_eq_none] at hp
    exact ⟨hp.2, hp.1⟩

/-- After a call, every input pair is cached. -/
theorem getTagIds_cache_covers {db : TagDb} {ts : List TagPair} {c : TagCache} {p : TagPair}
    (hp : p ∈ ts) : cacheFind (_get_tag_ids db ts c).cache (uidOf p) ≠ none := by
  cases he : (splitByCache c ts).2 with
  | nil =>
    rw [getTagIds_all_cached db he]
    rw [splitByCache_eq] at he
    simp only at he
    rw [List.filter_eq_nil_iff] at he
    have := he p hp
    simp only [Option.isNone_iff_eq_none] at this
    simpa using this
  | cons a l =>
    rw [getTagIds_uncached db (by rw [he]; rfl)]
    by_cases hc : cacheFind c (uidOf p) = none
    · apply cacheFind_writes_isSome
      refine Or.inr ?_
      have hmem : p ∈ (splitByCache c ts).2 := by
        rw [splitByCache_eq]
        simp only [List.mem_filter, Option.isNone_iff_eq_none]
        exact ⟨hp, hc⟩
      have hmods := @goc_models db ((splitByCache c ts).2)
      obtain ⟨m, hm, hrel⟩ := forall₂_exists_left hmods hmem
      exact ⟨m, hm, by rw [hrel.1, hrel.2.1]⟩
    · exact cacheFind_writes_isSome _ c (Or.inl hc)

theorem getTagIds_trace_len (db : TagDb) (ts : List TagPair) (c : TagCache) :
    (_get_tag_ids db ts c).trace.length ≤ 1 := by
  cases he : (splitByCache c ts).2 with
  | nil => rw [getTagIds_all_cached db he]; simp
  | cons a l => rw [getTagIds_uncached db (by rw [he]; rfl)]; simp

end Spyglass

namespace Spyglass

/-! ### Round-trip accounting (P4) -/

theorem countSent_append (t1 t2 : List (List TagPair)) (p : TagPair) :
    countSent (t1 ++ t2) p = countSent t1 p + countSent t2 p :=
  List.countP_append _ _ _

theorem countSent_le_length (tr : List (List TagPair)) (p : TagPair) :
    countSent tr p ≤ tr.length :=
  List.countP_le_length _

theorem countSent_eq_zero {tr : List (List TagPair)} {p : TagPair}
    (h : ∀ q ∈ tr, p ∉ q) : countSent tr p = 0 := by
  unfold countSent
  rw [List.countP_eq_zero]
  intro q hq
  simpa using h q hq

theorem countSent_pos_elim {tr : List (List TagPair)} {p : TagPair}
    (h : countSent tr p ≠ 0) : ∃ q ∈ tr, p ∈ q := by
  unfold countSent at h
  rcases List.countP_pos_iff.1 (Nat.pos_of_ne_zero h) with ⟨q, hq, hpq⟩
  exact ⟨q, hq, by simpa using hpq⟩

/-- Trace accounting for the ingestion loop: the loop only appends to the
trace; the appended requests mention a cached pair never, and any pair at
most once; and the cache only grows. -/
theorem ingestLoop_trace {cfg : Bool} {now : Nat} {idMap : List (String × String)}
    {modelMap : List (String × IndexedDocModel)} {g : List Nat} :
    ∀ (results : List CrawlResult) (acc acc2 : IngestAcc),
      ingestLoop cfg now idMap modelMap g results acc = .ok acc2 →
      ∃ tr, acc2.rtTrace = acc.rtTrace ++ tr ∧ tr.length ≤ results.length ∧
        (∀ u, cacheFind acc.cache u ≠ none → cacheFind acc2.cache u ≠ none) ∧
        (∀ p, countSent tr p ≤ 1 ∧
          (cacheFind acc.cache (uidOf p) ≠ none → countSent tr p = 0)) := by
  intro results
  induction results with
  | nil =>
    intro acc acc2 h
    rw [ingestLoop] at h
    cases h
    exact ⟨[], by simp, by simp, fun u hu => hu, fun p => ⟨by simp [countSent], fun _ => rfl⟩⟩
  | cons r rest ih =>
    intro acc acc2 h
    rw [ingestLoop] at h
    cases hp : parseUrl r.url with
    | none => rw [hp] at h; exact absurd h (by simp)
    | some u =>
      rw [hp] at h
      simp only at h
      set ro := _get_tag_ids acc.tagDb r.tags acc.cache with hro
      have hstep :
          ∃ acc1 : IngestAcc, acc1.cache = ro.cache ∧
            acc1.rtTrace = acc.rtTrace ++ ro.trace ∧
            ingestLoop cfg now idMap modelMap g rest acc1 = .ok acc2 := by
        cases hm : lookupAssocStr modelMap
            (acc.index.upsert (lookupAssocStr idMap r.url)
              ⟨r.title.getD "", (u.host).getD "", u.text, r.content.getD "",
                ro.tids ++ g⟩).1 with
        | none =>
          rw [hm] at h
          exact ⟨_, rfl, rfl, h⟩
        | some m =>
          rw [hm] at h
          exact ⟨_, rfl, rfl, h⟩
      obtain ⟨acc1, hc1, ht1, hrec⟩ := hstep
      obtain ⟨tr, htr, hlen, hmono, hcount⟩ := ih acc1 acc2 hrec
      refine ⟨ro.trace ++ tr, ?_, ?_, ?_, ?_⟩
      · rw [htr, ht1, List.append_assoc]
      · have h1 := getTagIds_trace_len acc.tagDb r.tags acc.cache
        rw [← hro] at h1
        simp only [List.length_append, List.length_cons]
        omega
      · intro v hv
        apply hmono
        rw [hc1]
        exact getTagIds_cache_mono hv
      · intro p
        rcases Classical.em (cacheFind acc.cache (uidOf p) ≠ none) with hcached | hunc
        · have hz1 : countSent ro.trace p = 0 := by
            apply countSent_eq_zero
            intro q hq hpq
            exact hcached ((getTagIds_trace_sent hq hpq).1)
          have hz2 : countSent tr p = 0 := by
            apply (hcount p).2
            rw [hc1]
            exact getTagIds_cache_mono hcached
          rw [countSent_append, hz1, hz2]
          exact ⟨by omega, fun _ => by omega⟩
        · rw [not_not] at hunc
          rw [countSent_append]
          refine ⟨?_, ?_⟩
          · rcases Classical.em (countSent ro.trace p = 0) with hz | hnz
            · have := (hcount p).1
              omega
            · obtain ⟨q, hq, hpq⟩ := countSent_pos_elim hnz
              have hsent := getTagIds_trace_sent hq hpq
              have hcov : cacheFind ro.cache (uidOf p) ≠ none :=
                getTagIds_cache_covers hsent.2
              have hz2 : countSent tr p = 0 := by
                apply (hcount p).2
                rw [hc1]
                exact hcov
              have hb : countSent ro.trace p ≤ 1 := by
                have := countSent_le_length ro.trace p
                have h1 := getTagIds_trace_len acc.tagDb r.tags acc.cache
                rw [← hro] at h1
                omega
              omega
          · intro hc
            exact absurd hunc hc

theorem pcr_roundtrip_aux {s : AppState} {now : Nat} {results : List CrawlResult}
    {gt : List TagPair} {res : AddUpdateResult} {s2 : AppState}
    {tr : List (List TagPair)}
    (h : process_crawl_results s now results gt = .ok (res, s2, tr)) (p : TagPair) :
    countSent tr p ≤ 1 ∧ tr.length ≤ results.length + 1 := by
  rw [process_crawl_results] at h
  by_cases hne : results.isEmpty
  · rw [if_pos hne] at h
    cases h
    exact ⟨by simp [countSent], by simp⟩
  · rw [if_neg hne] at h
    simp only at h
    set existing := s.registry.findByUrls (results.map (·.url)) with hex
    set g := _get_tag_ids s.tagDb gt [] with hg
    cases hloop : ingestLoop s.embeddingConfigured now (mkIdMap existing)
        (mkModelMap existing) g.tids results
        (initIngestAcc s ((mkIdMap existing).map (·.2)) g) with
    | error e => rw [hloop] at h; exact absurd h (by simp)
    | ok acc =>
      rw [hloop] at h
      simp only [Except.ok.injEq] at h
      have htr : tr = acc.rtTrace := by
        have h3 := congrArg (fun x => x.2.2) h
        simpa [pcrFinish] using h3.symm
      obtain ⟨tr2, htr2, hlen, hmono, hcount⟩ :=
        ingestLoop_trace results _ acc hloop
      have hacc0 : (initIngestAcc s ((mkIdMap existing).map (·.2)) g).rtTrace = g.trace := rfl
      have hacc0c : (initIngestAcc s ((mkIdMap existing).map (·.2)) g).cache = g.cache := rfl
      rw [hacc0] at htr2
      have hglen : g.trace.length ≤ 1 := by
        rw [hg]
        exact getTagIds_trace_len s.tagDb gt []
      constructor
      · rw [htr, htr2, countSent_append]
        rcases Classical.em (countSent g.trace p = 0) with hz | hnz
        · have := (hcount p).1
          omega
        · obtain ⟨q, hq, hpq⟩ := countSent_pos_elim hnz
          rw [hg] at hq
          have hsent := getTagIds_trace_sent hq hpq
          have hcov : cacheFind g.cache (uidOf p) ≠ none := by
            rw [hg]
            exact getTagIds_cache_covers hsent.2
          have hz2 : countSent tr2 p = 0 := by
            apply (hcount p).2
            rw [hacc0c]
            exact hcov
          have hb : countSent g.trace p ≤ 1 := by
            have := countSent_le_length g.trace p
            omega
          omega
      · rw [htr, htr2]
        simp only [List.length_append]
        omega

end Spyglass

namespace Spyglass

/-! ### Map and lookup helpers -/

theorem foldl_cons_map {α β : Type} (f : α → β) :
    ∀ (l : List α) (a : List β),
      l.foldl (fun acc m => f m :: acc) a = (l.map f).reverse ++ a := by
  intro l
  induction l with
  | nil => intro a; simp
  | cons x xs ih =>
    intro a
    rw [List.foldl_cons, ih, List.map_cons, List.reverse_cons, List.append_assoc]
    simp

theorem mkIdMap_eq (existing : List IndexedDocModel) :
    mkIdMap existing = (existing.map fun m => (m.url, m.doc_id)).reverse := by
  unfold mkIdMap
  rw [foldl_cons_map]
  simp

theorem mkModelMap_eq (existing : List IndexedDocModel) :
    mkModelMap existing = (existing.map fun m => (m.doc_id, m)).reverse := by
  unfold mkModelMap
  rw [foldl_cons_map]
  simp

theorem mem_mkIdMap {existing : List IndexedDocModel} {x : String × String} :
    x ∈ mkIdMap existing ↔ ∃ m ∈ existing, x = (m.url, m.doc_id) := by
  rw [mkIdMap_eq, List.mem_reverse, List.mem_map]
  constructor
  · rintro ⟨m, hm, rfl⟩; exact ⟨m, hm, rfl⟩
  · rintro ⟨m, hm, rfl⟩; exact ⟨m, hm, rfl⟩

theorem mem_mkModelMap {existing : List IndexedDocModel} {x : String × IndexedDocModel} :
    x ∈ mkModelMap existing ↔ ∃ m ∈ existing, x = (m.doc_id, m) := by
  rw [mkModelMap_eq, List.mem_reverse, List.mem_map]
  constructor
  · rintro ⟨m, hm, rfl⟩; exact ⟨m, hm, rfl⟩
  · rintro ⟨m, hm, rfl⟩; exact ⟨m, hm, rfl⟩

theorem lookupAssocStr_eq_none {α : Type} {l : List (String × α)} {k : String} :
    lookupAssocStr l k = none ↔ ∀ e ∈ l, e.1 ≠ k := by
  unfold lookupAssocStr
  rw [Option.map_eq_none', List.find?_eq_none]
  constructor
  · intro h e he
    simpa using h e he
  · intro h e he
    simpa using h e he

theorem lookupAssocStr_mem {α : Type} {l : List (String × α)} {k : String} {v : α}
    (h : lookupAssocStr l k = some v) : (k, v) ∈ l := by
  unfold lookupAssocStr at h
  rw [Option.map_eq_some'] at h
  obtain ⟨e, he, hv⟩ := h
  have hmem := List.mem_of_find?_eq_some he
  have hpred := List.find?_some he
  simp only [beq_iff_eq] at hpred
  have : e = (k, v) := by
    cases e
    simp only at hv
    simp_all
  rwa [this] at hmem

theorem lookupAssocStr_isSome {α : Type} {l : List (String × α)} {k : String}
    (h : ∃ e ∈ l, e.1 = k) : (lookupAssocStr l k).isSome := by
  unfold lookupAssocStr
  rw [Option.isSome_map']
  rw [List.find?_isSome]
  obtain ⟨e, he, hk⟩ := h
  exact ⟨e, he, by simpa using hk⟩

/-! ### URL and doc id helpers -/

theorem parseUrl_text {s : String} {u : UrlT} (h : parseUrl s = some u) : u.text = s := by
  unfold parseUrl at h
  by_cases h1 : ("https://".data).isPrefixOf s.data
  · rw [if_pos h1] at h
    by_cases h2 : (s.data.drop 8).isEmpty
    · rw [if_pos h2] at h; exact absurd h (by simp)
    · rw [if_neg h2] at h
      simp only [Option.some.injEq] at h
      rw [← h]
  · rw [if_neg h1] at h
    by_cases h3 : ("http://".data).isPrefixOf s.data
    · rw [if_pos h3] at h
      by_cases h2 : (s.data.drop 7).isEmpty
      · rw [if_pos h2] at h; exact absurd h (by simp)
      · rw [if_neg h2] at h
        simp only [Option.some.injEq] at h
        rw [← h]
    · rw [if_neg h3] at h
      exact absurd h (by simp)

theorem genDocId_length (k : Nat) : (genDocId k).length = k + 1 := by
  simp [genDocId, String.length]

/-! ### Registry write helpers -/

theorem insertMany_spec (docs : List PendingDoc) :
    ∀ reg : Registry, ∃ newRows,
      (reg.insertMany docs).rows = reg.rows ++ newRows ∧
        newRows.map (·.url) = docs.map (·.url) ∧
        (∀ nr ∈ newRows, reg.nextPk ≤ nr.id) ∧
        (reg.insertMany docs).tagJoins = reg.tagJoins := by
  induction docs with
  | nil =>
    intro reg
    exact ⟨[], by simp [Registry.insertMany], rfl, by simp, rfl⟩
  | cons d ds ih =>
    intro reg
    have hstep : reg.insertMany (d :: ds)
        = Registry.insertMany
            ⟨reg.rows ++ [⟨reg.nextPk, d.domain, d.url, d.open_url, d.doc_id, d.updated_at⟩],
             reg.nextPk + 1, reg.tagJoins⟩ ds := by
      rfl
    obtain ⟨newRows, h1, h2, h3, h4⟩ :=
      ih ⟨reg.rows ++ [⟨reg.nextPk, d.domain, d.url, d.open_url, d.doc_id, d.updated_at⟩],
          reg.nextPk + 1, reg.tagJoins⟩
    refine ⟨⟨reg.nextPk, d.domain, d.url, d.open_url, d.doc_id, d.updated_at⟩ :: newRows,
      ?_, ?_, ?_, ?_⟩
    · rw [hstep, h1]
      simp
    · simp only [List.map_cons, h2]
    · intro nr hnr
      rcases List.mem_cons.1 hnr with rfl | hmem
      · exact Nat.le_refl _
      · exact Nat.le_of_succ_le (h3 nr hmem)
    · rw [hstep, h4]

theorem insertTagsForDocs_rows (reg : Registry) (ms : List IndexedDocModel)
    (tids : List Nat) :
    (reg.insertTagsForDocs ms tids).rows = reg.rows ∧
      (reg.insertTagsForDocs ms tids).nextPk = reg.nextPk :=
  ⟨rfl, rfl⟩

theorem applyAdded_rows (em : List (String × String)) (tm : List (String × List Nat)) :
    ∀ (added : List IndexedDocModel) (ts : TxState),
      (applyAdded em tm added ts).registry.rows = ts.registry.rows ∧
        (applyAdded em tm added ts).registry.nextPk = ts.registry.nextPk := by
  intro added
  induction added with
  | nil => intro ts; exact ⟨rfl, rfl⟩
  | cons m ms ih =>
    intro ts
    rw [applyAdded]
    cases he : lookupAssocStr em m.doc_id with
    | none =>
      cases ht : lookupAssocStr tm m.url with
      | none =>
        simp only [he, ht]
        exact ih ts
      | some tids =>
        simp only [he, ht]
        obtain ⟨h1, h2⟩ := ih ⟨ts.registry.insertTagsForDocs [m] tids, ts.queue⟩
        exact ⟨h1, h2⟩
    | some content =>
      cases ht : lookupAssocStr tm m.url with
      | none =>
        simp only [he, ht]
        obtain ⟨h1, h2⟩ := ih ⟨ts.registry, ts.queue ++ [(m.doc_id, m.id, content)]⟩
        exact ⟨h1, h2⟩
      | some tids =>
        simp only [he, ht]
        obtain ⟨h1, h2⟩ :=
          ih ⟨ts.registry.insertTagsForDocs [m] tids, ts.queue ++ [(m.doc_id, m.id, content)]⟩
        exact ⟨h1, h2⟩

/-- The updates loop preserves the `(primary key, url)` pairs of the rows
(it only touches `updated_at`, the queue and the join table), provided each
staged update matches the url of the rows holding its primary key. -/
theorem applyUpdates_pairs (em : List (String × String)) (tm : List (String × List Nat)) :
    ∀ (updates : List IndexedDocModel) (ts : TxState),
      (∀ m ∈ updates, ∀ row ∈ ts.registry.rows, row.id = m.id → row.url = m.url) →
      (applyUpdates em tm updates ts).registry.rows.map (fun r => (r.id, r.url))
          = ts.registry.rows.map (fun r => (r.id, r.url)) ∧
        (applyUpdates em tm updates ts).registry.nextPk = ts.registry.nextPk := by
  intro updates
  induction updates with
  | nil => intro ts _; exact ⟨rfl, rfl⟩
  | cons m ms ih =>
    intro ts hok
    have hsave : (ts.registry.saveRow m).rows.map (fun r => (r.id, r.url))
        = ts.registry.rows.map (fun r => (r.id, r.url)) := by
      unfold Registry.saveRow
      simp only [List.map_map]
      refine List.map_congr_left ?_
      intro row hrow
      by_cases hid : row.id == m.id
      · have hid2 : row.id = m.id := by simpa using hid
        have hurl := hok m (List.mem_cons_self m ms) row hrow hid2
        simp [hid, hid2, hurl]
      · have hid2 : ¬ row.id = m.id := by simpa using hid
        simp [hid2]
    have hsavePk : (ts.registry.saveRow m).nextPk = ts.registry.nextPk := rfl
    have hnext : ∀ reg2 : Registry,
        reg2.rows.map (fun r => (r.id, r.url)) = ts.registry.rows.map (fun r => (r.id, r.url)) →
        ∀ m2 ∈ ms, ∀ row ∈ reg2.rows, row.id = m2.id → row.url = m2.url := by
      intro reg2 hpairs m2 hm2 row hrow hid
      have hmem : (row.id, row.url) ∈ reg2.rows.map (fun r => (r.id, r.url)) :=
        List.mem_map_of_mem _ hrow
      rw [hpairs] at hmem
      obtain ⟨row0, hrow0, heq⟩ := List.mem_map.1 hmem
      have h1 : row0.id = row.id := congrArg Prod.fst heq
      have h2 : row0.url = row.url := congrArg Prod.snd heq
      rw [← h2]
      exact hok m2 (List.mem_cons_of_mem m hm2) row0 hrow0 (h1.trans hid)
    rw [applyUpdates]
    cases he : lookupAssocStr em m.doc_id with
    | none =>
      cases ht : lookupAssocStr tm m.url with
      | none =>
        simp only [he, ht]
        obtain ⟨h1, h2⟩ := ih ⟨ts.registry.saveRow m, ts.queue⟩
          (by intro m2 hm2 row hrow hid; exact hnext _ hsave m2 hm2 row (by simpa using hrow) hid)
        exact ⟨h1.trans hsave, h2.trans hsavePk⟩
      | some tids =>
        simp only [he, ht]
        have hrows := (insertTagsForDocs_rows (ts.registry.saveRow m) [m] tids).1
        have hpairs2 : ((ts.registry.saveRow m).insertTagsForDocs [m] tids).rows.map
            (fun r => (r.id, r.url)) = ts.registry.rows.map (fun r => (r.id, r.url)) := by
          rw [hrows, hsave]
        obtain ⟨h1, h2⟩ := ih ⟨(ts.registry.saveRow m).insertTagsForDocs [m] tids, ts.queue⟩
          (by intro m2 hm2 row hrow hid; exact hnext _ hpairs2 m2 hm2 row (by simpa using hrow) hid)
        refine ⟨h1.trans hpairs2, h2.trans ?_⟩
        rw [(insertTagsForDocs_rows (ts.registry.saveRow m) [m] tids).2, hsavePk]
    | some content =>
      cases ht : lookupAssocStr tm m.url with
      | none =>
        simp only [he, ht]
        obtain ⟨h1, h2⟩ := ih ⟨ts.registry.saveRow m, ts.queue ++ [(m.doc_id, m.id, content)]⟩
          (by intro m2 hm2 row hrow hid; exact hnext _ hsave m2 hm2 row (by simpa using hrow) hid)
        exact ⟨h1.trans hsave, h2.trans hsavePk⟩
      | some tids =>
        simp only [he, ht]
        have hrows := (insertTagsForDocs_rows (ts.registry.saveRow m) [m] tids).1
        have hpairs2 : ((ts.registry.saveRow m).insertTagsForDocs [m] tids).rows.map
            (fun r => (r.id, r.url)) = ts.registry.rows.map (fun r => (r.id, r.url)) := by
          rw [hrows, hsave]
        obtain ⟨h1, h2⟩ := ih
          ⟨(ts.registry.saveRow m).insertTagsForDocs [m] tids,
            ts.queue ++ [(m.doc_id, m.id, content)]⟩
          (by intro m2 hm2 row hrow hid; exact hnext _ hpairs2 m2 hm2 row (by simpa using hrow) hid)
        refine ⟨h1.trans hpairs2, h2.trans ?_⟩
        rw [(insertTagsForDocs_rows (ts.registry.saveRow m) [m] tids).2, hsavePk]

end Spyglass

namespace Spyglass

/-! ### Characterization of the ingestion loop -/

theorem upsert_some (idx : SearchIndex) (i : String) (d : IndexDoc) :
    idx.upsert (some i) d = (i, ⟨(idx.docs.filter fun e => e.1 != i) ++ [(i, d)], idx.nextId⟩) :=
  rfl

theorem upsert_none (idx : SearchIndex) (d : IndexDoc) :
    idx.upsert none d = (genDocId idx.nextId, ⟨idx.docs ++ [(genDocId idx.nextId, d)], idx.nextId + 1⟩) :=
  rfl

/-- Success and staging behaviour of the main loop: when every url parses,
the loop succeeds; the urls it stages for insert (`added_docs` and the
staged rows) are exactly the urls with no `id_map` entry, in input order;
the id allocator only grows; and every staged update is the touch of a row
of `model_map`. -/
theorem ingestLoop_spec {cfg : Bool} {now : Nat} {idMap : List (String × String)}
    {modelMap : List (String × IndexedDocModel)} {g : List Nat} :
    ∀ (results : List CrawlResult) (acc : IngestAcc),
      (∀ r ∈ results, (parseUrl r.url).isSome) →
      (∀ u d, lookupAssocStr idMap u = some d → (lookupAssocStr modelMap d).isSome) →
      (∀ d m, lookupAssocStr modelMap d = some m →
        ∀ k, acc.index.nextId ≤ k → d ≠ genDocId k) →
      ∃ acc2, ingestLoop cfg now idMap modelMap g results acc = .ok acc2 ∧
        acc2.addedDocs = acc.addedDocs
          ++ (results.filter fun r => (lookupAssocStr idMap r.url).isNone).map (·.url) ∧
        acc2.inserts.map (·.url) = acc.inserts.map (·.url)
          ++ (results.filter fun r => (lookupAssocStr idMap r.url).isNone).map (·.url) ∧
        acc.index.nextId ≤ acc2.index.nextId ∧
        (∀ m ∈ acc2.updates, m ∈ acc.updates ∨
          ∃ d m0, lookupAssocStr modelMap d = some m0 ∧ m = { m0 with updated_at := now }) := by
  intro results
  induction results with
  | nil =>
    intro acc _ _ _
    refine ⟨acc, rfl, by simp, by simp, Nat.le_refl _, fun m hm => Or.inl hm⟩
  | cons r rest ih =>
    intro acc hparse hmap hfresh
    obtain ⟨u, hu⟩ := Option.isSome_iff_exists.1 (hparse r (List.mem_cons_self r rest))
    have hutext := parseUrl_text hu
    rw [ingestLoop, hu]
    cases hl : lookupAssocStr idMap r.url with
    | some d =>
      obtain ⟨m, hm⟩ := Option.isSome_iff_exists.1 (hmap r.url d hl)
      simp only [hl, upsert_some, hm]
      set acc2 : IngestAcc :=
        { acc with
          cache := (_get_tag_ids acc.tagDb r.tags acc.cache).cache,
          tagDb := (_get_tag_ids acc.tagDb r.tags acc.cache).tagDb,
          index := ⟨(acc.index.docs.filter fun e => e.1 != d)
            ++ [(d, ⟨r.title.getD "", (u.host).getD "", u.text, r.content.getD "",
                  (_get_tag_ids acc.tagDb r.tags acc.cache).tids ++ g⟩)], acc.index.nextId⟩,
          tagMap := (r.url, (_get_tag_ids acc.tagDb r.tags acc.cache).tids ++ g) :: acc.tagMap,
          embMap := match r.content with
            | some c => if cfg then (d, c) :: acc.embMap else acc.embMap
            | none => acc.embMap,
          rtTrace := acc.rtTrace ++ (_get_tag_ids acc.tagDb r.tags acc.cache).trace,
          updates := acc.updates ++ [{ m with updated_at := now }] } with hacc2
      obtain ⟨accf, hrec, hadded, hins, hnext, hupd⟩ := ih acc2
        (fun r2 hr2 => hparse r2 (List.mem_cons_of_mem r hr2)) hmap
        (by
          intro d2 m2 hm2 k hk
          exact hfresh d2 m2 hm2 k hk)
      refine ⟨accf, hrec, ?_, ?_, ?_, ?_⟩
      · rw [hadded]
        simp [List.filter_cons, hl]
      · rw [hins]
        simp [List.filter_cons, hl]
      · exact hnext
      · intro m2 hm2
        rcases hupd m2 hm2 with hacc | hrest
        · rcases List.mem_append.1 hacc with hl2 | hr2
          · exact Or.inl hl2
          · rcases List.mem_singleton.1 hr2 with rfl
            exact Or.inr ⟨d, m, hm, rfl⟩
        · exact Or.inr hrest
    | none =>
      simp only [hl, upsert_none]
      cases hm2 : lookupAssocStr modelMap (genDocId acc.index.nextId) with
      | some m0 =>
        exact absurd rfl (hfresh _ m0 hm2 acc.index.nextId (Nat.le_refl _))
      | none =>
        simp only [hm2]
        set acc2 : IngestAcc :=
          { acc with
            cache := (_get_tag_ids acc.tagDb r.tags acc.cache).cache,
            tagDb := (_get_tag_ids acc.tagDb r.tags acc.cache).tagDb,
            index := ⟨acc.index.docs
              ++ [(genDocId acc.index.nextId,
                    ⟨r.title.getD "", (u.host).getD "", u.text, r.content.getD "",
                      (_get_tag_ids acc.tagDb r.tags acc.cache).tids ++ g⟩)],
              acc.index.nextId + 1⟩,
            tagMap := (r.url, (_get_tag_ids acc.tagDb r.tags acc.cache).tids ++ g) :: acc.tagMap,
            embMap := match r.content with
              | some c => if cfg then (genDocId acc.index.nextId, c) :: acc.embMap
                else acc.embMap
              | none => acc.embMap,
            rtTrace := acc.rtTrace ++ (_get_tag_ids acc.tagDb r.tags acc.cache).trace,
            addedDocs := acc.addedDocs ++ [u.text],
            inserts := acc.inserts
              ++ [⟨(u.host).getD "", u.text, r.open_url, genDocId acc.index.nextId, now⟩] }
          with hacc2
        obtain ⟨accf, hrec, hadded, hins, hnext, hupd⟩ := ih acc2
          (fun r2 hr2 => hparse r2 (List.mem_cons_of_mem r hr2)) hmap
          (by
            intro d2 m2 hm3 k hk
            exact hfresh d2 m2 hm3 k (Nat.le_of_succ_le hk))
        refine ⟨accf, hrec, ?_, ?_, ?_, ?_⟩
        · rw [hadded]
          simp [List.filter_cons, hl, hutext]
        · rw [hins]
          simp [List.filter_cons, hl, hutext]
        · exact Nat.le_trans (Nat.le_succ _) hnext
        · intro m2 hm3
          rcases hupd m2 hm3 with hacc | hrest
          · exact Or.inl hacc
          · exact Or.inr hrest

end Spyglass

namespace Spyglass

/-! ### Counter semantics of `process_crawl_results` -/

theorem pcr_counters_main {s : AppState} {now : Nat} {results : List CrawlResult}
    {gt : List TagPair}
    (hwf : registryWf s.registry) (hfresh : docIdFresh s)
    (hparse : ∀ r ∈ results, (parseUrl r.url).isSome) :
    ∃ s2 tr, process_crawl_results s now results gt
      = .ok (⟨(results.filter fun r => !(s.registry.rows.any fun m => m.url == r.url)).length,
              (s.registry.rows.filter fun m => (results.map (·.url)).contains m.url).length⟩,
             s2, tr) := by
  cases hres : results with
  | nil =>
    refine ⟨s, [], ?_⟩
    simp [process_crawl_results]
  | cons r0 rest =>
    rw [← hres]
    have hne : results.isEmpty = false := by rw [hres]; rfl
    set existing := s.registry.findByUrls (results.map (·.url)) with hex
    have hmemex : ∀ m, m ∈ existing ↔ m ∈ s.registry.rows
        ∧ ((results.map (·.url)).contains m.url) := by
      intro m
      rw [hex]
      unfold Registry.findByUrls
      rw [List.mem_filter]
    -- hypotheses of the loop lemma
    have hmap : ∀ u d, lookupAssocStr (mkIdMap existing) u = some d →
        (lookupAssocStr (mkModelMap existing) d).isSome := by
      intro u d hl
      have hmem := lookupAssocStr_mem hl
      obtain ⟨m, hm, heq⟩ := mem_mkIdMap.1 hmem
      have hd : d = m.doc_id := congrArg Prod.snd heq
      apply lookupAssocStr_isSome
      refine ⟨(m.doc_id, m), mem_mkModelMap.2 ⟨m, hm, rfl⟩, hd.symm⟩
    have hfreshLoop : ∀ d m,
        lookupAssocStr (mkModelMap existing) d = some m →
        ∀ k, (initIngestAcc s ((mkIdMap existing).map (·.2))
            (_get_tag_ids s.tagDb gt [])).index.nextId ≤ k → d ≠ genDocId k := by
      intro d m hl k hk heq
      have hmem := lookupAssocStr_mem hl
      obtain ⟨m2, hm2, heq2⟩ := mem_mkModelMap.1 hmem
      have hd : d = m2.doc_id := congrArg Prod.fst heq2
      have hrows : m2 ∈ s.registry.rows := ((hmemex m2).1 hm2).1
      have hlen := hfresh m2 hrows
      have hk2 : (initIngestAcc s ((mkIdMap existing).map (·.2))
          (_get_tag_ids s.tagDb gt [])).index.nextId = s.index.nextId := rfl
      rw [hk2] at hk
      have hlen2 := congrArg String.length heq
      rw [genDocId_length] at hlen2
      rw [hd] at hlen2
      omega
    obtain ⟨acc2, hloop, hadded, hins, _, hupd⟩ :=
      @ingestLoop_spec s.embeddingConfigured now _ _ ((_get_tag_ids s.tagDb gt []).tids)
        results (initIngestAcc s ((mkIdMap existing).map (·.2)) (_get_tag_ids s.tagDb gt []))
        hparse hmap hfreshLoop
    have hpcr : process_crawl_results s now results gt = .ok (pcrFinish s existing acc2) := by
      rw [process_crawl_results, hne]
      simp only [Bool.false_eq_true, if_false]
      rw [← hex, hloop]
    -- notation for the loop outputs
    have hacc0a : (initIngestAcc s ((mkIdMap existing).map (·.2))
        (_get_tag_ids s.tagDb gt [])).addedDocs = [] := rfl
    have hacc0i : (initIngestAcc s ((mkIdMap existing).map (·.2))
        (_get_tag_ids s.tagDb gt [])).inserts = [] := rfl
    have hacc0u : (initIngestAcc s ((mkIdMap existing).map (·.2))
        (_get_tag_ids s.tagDb gt [])).updates = [] := rfl
    rw [hacc0a] at hadded
    rw [hacc0i] at hins
    simp only [List.map_nil, List.nil_append] at hadded hins
    -- the staged updates touch rows of the registry
    have hupd2 : ∀ m ∈ acc2.updates, ∃ m0 ∈ s.registry.rows,
        m.id = m0.id ∧ m.url = m0.url := by
      intro m hm
      rcases hupd m hm with habs | ⟨d, m0, hl, heq⟩
      · rw [hacc0u] at habs
        exact absurd habs (List.not_mem_nil m)
      · obtain ⟨m1, hm1, heq1⟩ := mem_mkModelMap.1 (lookupAssocStr_mem hl)
        have : m0 = m1 := congrArg Prod.snd heq1
        subst this
        refine ⟨m0, ((hmemex m0).1 hm1).1, ?_, ?_⟩
        · rw [heq]
        · rw [heq]
    -- insert_many characterization
    obtain ⟨newRows, hreg1, hnew_urls, hnew_pk, _⟩ := insertMany_spec acc2.inserts s.registry
    -- applyUpdates preserves (pk, url) pairs
    have hpairs := applyUpdates_pairs acc2.embMap acc2.tagMap acc2.updates
      ⟨s.registry.insertMany acc2.inserts, s.embeddingQueue⟩
      (by
        intro m hm row hrow hid
        simp only at hrow
        rw [hreg1] at hrow
        obtain ⟨m0, hm0, hid0, hurl0⟩ := hupd2 m hm
        rcases List.mem_append.1 hrow with hold | hnewr
        · have : row = m0 := by
            apply List.inj_on_of_nodup_map hwf.2.1 hold hm0
            rw [hid, hid0]
          rw [this, hurl0]
        · have h1 := hnew_pk row hnewr
          have h2 := hwf.2.2 m0 hm0
          rw [hid, hid0] at h1
          omega)
    -- url multiset of the rows after the updates pass
    have hurls : (applyUpdates acc2.embMap acc2.tagMap acc2.updates
          ⟨s.registry.insertMany acc2.inserts, s.embeddingQueue⟩).registry.rows.map (·.url)
        = s.registry.rows.map (·.url) ++ acc2.inserts.map (·.url) := by
      have h1 := congrArg (List.map Prod.snd) hpairs.1
      simp only [List.map_map] at h1
      have h2 : ((fun x => x.2) ∘ fun r => (r.id, r.url))
          = fun (r : IndexedDocModel) => r.url := rfl
      rw [h2] at h1
      rw [h1]
      have h3 : (⟨s.registry.insertMany acc2.inserts, s.embeddingQueue⟩ :
          TxState).registry.rows = (s.registry.insertMany acc2.inserts).rows := rfl
      rw [h3, hreg1, List.map_append, hnew_urls]
    -- counting the reloaded added entries
    have hcount : ((applyUpdates acc2.embMap acc2.tagMap acc2.updates
          ⟨s.registry.insertMany acc2.inserts, s.embeddingQueue⟩).registry.findByUrls
            acc2.addedDocs).length
        = (results.filter fun r =>
            (lookupAssocStr (mkIdMap existing) r.url).isNone).length := by
      unfold Registry.findByUrls
      rw [← List.countP_eq_length_filter]
      have hmapcount : ∀ (rows : List IndexedDocModel),
          rows.countP (fun m => acc2.addedDocs.contains m.url)
            = (rows.map (·.url)).countP (fun url0 => acc2.addedDocs.contains url0) := by
        intro rows
        rw [List.countP_map]
        rfl
      rw [hmapcount, hurls, List.countP_append]
      have hz : (s.registry.rows.map (·.url)).countP
          (fun url0 => acc2.addedDocs.contains url0) = 0 := by
        rw [List.countP_eq_zero]
        intro url0 hurl0 hcontains
        have hmemadded : url0 ∈ acc2.addedDocs := List.elem_iff.1 hcontains
        rw [hadded] at hmemadded
        obtain ⟨r, hr, hrurl⟩ := List.mem_map.1 hmemadded
        have hrmem : r ∈ results := (List.mem_filter.1 hr).1
        have hrnone : (lookupAssocStr (mkIdMap existing) r.url).isNone :=
          (List.mem_filter.1 hr).2
        obtain ⟨m, hmrows, hmurl⟩ := List.mem_map.1 hurl0
        have hmex : m ∈ existing := by
          rw [hmemex]
          refine ⟨hmrows, ?_⟩
          apply List.elem_iff.2
          rw [List.mem_map]
          exact ⟨r, hrmem, by rw [hmurl, hrurl]⟩
        have : lookupAssocStr (mkIdMap existing) r.url ≠ none := by
          intro hnone
          have := lookupAssocStr_eq_none.1 hnone (m.url, m.doc_id)
            (mem_mkIdMap.2 ⟨m, hmex, rfl⟩)
          simp only at this
          exact this (by rw [hmurl, hrurl])
        rw [Option.isNone_iff_eq_none] at hrnone
        exact this hrnone
      have hall : (acc2.inserts.map (·.url)).countP
          (fun url0 => acc2.addedDocs.contains url0)
          = (acc2.inserts.map (·.url)).length := by
        rw [List.countP_eq_length]
        intro url0 hurl0
        rw [hins] at hurl0
        apply List.elem_iff.2
        rw [hadded]
        exact hurl0
      rw [hz, hall, hins, Nat.zero_add, List.length_map]
    -- the id_map freshness test agrees with "no registry row has this url"
    have hpred : ∀ r ∈ results,
        ((lookupAssocStr (mkIdMap existing) r.url).isNone)
          = !(s.registry.rows.any fun m => m.url == r.url) := by
      intro r hr
      cases hany : s.registry.rows.any fun m => m.url == r.url with
      | true =>
        obtain ⟨m, hmrows, hmurl⟩ := List.any_eq_true.1 hany
        have hmurl2 : m.url = r.url := by simpa using hmurl
        have hmex : m ∈ existing := by
          rw [hmemex]
          refine ⟨hmrows, ?_⟩
          apply List.elem_iff.2
          rw [List.mem_map]
          exact ⟨r, hr, hmurl2.symm⟩
        have hsome : (lookupAssocStr (mkIdMap existing) r.url).isSome := by
          apply lookupAssocStr_isSome
          exact ⟨(m.url, m.doc_id), mem_mkIdMap.2 ⟨m, hmex, rfl⟩, hmurl2⟩
        simp only [Bool.not_true]
        rw [Option.isNone_eq_false_iff]
        exact hsome
      | false =>
        simp only [Bool.not_false]
        rw [Option.isNone_iff_eq_none, lookupAssocStr_eq_none]
        intro e he
        obtain ⟨m, hmex, heq⟩ := mem_mkIdMap.1 he
        have hmrows : m ∈ s.registry.rows := ((hmemex m).1 hmex).1
        have he1 : e.1 = m.url := congrArg Prod.fst heq
        rw [he1]
        intro hurl
        have : s.registry.rows.any (fun m2 => m2.url == r.url) = true :=
          List.any_eq_true.2 ⟨m, hmrows, by simpa using hurl⟩
        rw [hany] at this
        exact absurd this (by simp)
    have hfiltereq : (results.filter fun r =>
          (lookupAssocStr (mkIdMap existing) r.url).isNone)
        = results.filter fun r => !(s.registry.rows.any fun m => m.url == r.url) :=
      List.filter_congr hpred
    refine ⟨(pcrFinish s existing acc2).2.1, (pcrFinish s existing acc2).2.2, ?_⟩
    rw [hpcr]
    have hfin : pcrFinish s existing acc2
        = ((pcrFinish s existing acc2).1, (pcrFinish s existing acc2).2.1,
           (pcrFinish s existing acc2).2.2) := rfl
    rw [hfin]
    have hfirst : (pcrFinish s existing acc2).1
        = ⟨(results.filter fun r =>
              !(s.registry.rows.any fun m => m.url == r.url)).length,
           (s.registry.rows.filter fun m => (results.map (·.url)).contains m.url).length⟩ := by
      show (⟨((applyUpdates acc2.embMap acc2.tagMap acc2.updates
          ⟨s.registry.insertMany acc2.inserts, s.embeddingQueue⟩).registry.findByUrls
            acc2.addedDocs).length, existing.length⟩ : AddUpdateResult) = _
      rw [hcount, hfiltereq, hex]
      rfl
    rw [hfirst]

end Spyglass

namespace Spyglass

/-! ### Re-ingestion: run characterizations -/

theorem pcr_first_insert {s : AppState} {now : Nat} {r : CrawlResult} {gt : List TagPair}
    {u : UrlT} (hu : parseUrl r.url = some u)
    (hempty : s.registry.findByUrls [r.url] = []) :
    process_crawl_results s now [r] gt = .ok
      (⟨1, 0⟩,
       { s with
         registry :=
           ⟨s.registry.rows
              ++ [⟨s.registry.nextPk, (u.host).getD "", u.text, r.open_url,
                   genDocId s.index.nextId, now⟩],
            s.registry.nextPk + 1,
            (((_get_tag_ids (_get_tag_ids s.tagDb gt []).tagDb r.tags
                  (_get_tag_ids s.tagDb gt []).cache).tids
                ++ (_get_tag_ids s.tagDb gt []).tids).foldl
              (fun j t => insertJoin j (s.registry.nextPk, t)) s.registry.tagJoins)⟩,
         tagDb := (_get_tag_ids (_get_tag_ids s.tagDb gt []).tagDb r.tags
           (_get_tag_ids s.tagDb gt []).cache).tagDb,
         index :=
           ⟨s.index.docs
              ++ [(genDocId s.index.nextId,
                   ⟨r.title.getD "", (u.host).getD "", u.text, r.content.getD "",
                    (_get_tag_ids (_get_tag_ids s.tagDb gt []).tagDb r.tags
                        (_get_tag_ids s.tagDb gt []).cache).tids
                      ++ (_get_tag_ids s.tagDb gt []).tids⟩)],
            s.index.nextId + 1⟩,
         embeddingQueue := s.embeddingQueue
           ++ (match r.content with
               | some c => if s.embeddingConfigured
                   then [(genDocId s.index.nextId, s.registry.nextPk, c)] else []
               | none => []) },
       (_get_tag_ids s.tagDb gt []).trace
         ++ (_get_tag_ids (_get_tag_ids s.tagDb gt []).tagDb r.tags
              (_get_tag_ids s.tagDb gt []).cache).trace) := by
  have hnomatch : ∀ m ∈ s.registry.rows, ¬ ([r.url].contains m.url = true) := by
    have := List.filter_eq_nil_iff.1 hempty
    intro m hm
    exact by simpa using this m hm
  have hnomatch2 : ∀ m ∈ s.registry.rows, m.url ≠ u.text := by
    intro m hm heq
    apply hnomatch m hm
    rw [heq, parseUrl_text hu]
    simp
  have hexist : s.registry.findByUrls (List.map (fun x => x.url) [r]) = [] := by
    simpa [Registry.findByUrls] using hempty
  rw [process_crawl_results]
  simp only [List.isEmpty_cons, Bool.false_eq_true, if_false, hexist, mkIdMap, mkModelMap,
    List.foldl_nil, List.map_nil]
  rw [ingestLoop, hu]
  have hut := parseUrl_text hu
  simp only [initIngestAcc, lookupAssocStr, List.find?_nil, Option.map_none', SearchIndex.upsert,
    SearchIndex.deleteManyById, ingestLoop, List.contains_nil, Bool.not_false, List.filter_true,
    List.nil_append, List.append_nil]
  rw [hut]
  have hnor : ∀ m ∈ s.registry.rows, m.url ≠ r.url := by
    intro m hm
    rw [← hut]
    exact hnomatch2 m hm
  have hfil : List.filter (fun m => decide (m.url = r.url)) s.registry.rows = [] :=
    List.filter_eq_nil_iff.2 (by intro m hm; simpa using hnor m hm)
  cases hc : r.content with
  | none =>
    simp [pcrFinish, Registry.insertMany, applyUpdates, applyAdded, Registry.findByUrls,
      List.filter_append, hfil, hnor, lookupAssocStr, Registry.insertTagsForDocs, List.find?]
  | some c =>
    cases hcfg : s.embeddingConfigured with
    | false =>
      simp [pcrFinish, Registry.insertMany, applyUpdates, applyAdded, Registry.findByUrls,
        List.filter_append, hfil, hnor, lookupAssocStr, Registry.insertTagsForDocs, List.find?,
        hcfg]
    | true =>
      simp [pcrFinish, Registry.insertMany, applyUpdates, applyAdded, Registry.findByUrls,
        List.filter_append, hfil, hnor, lookupAssocStr, Registry.insertTagsForDocs, List.find?,
        hcfg]

end Spyglass

namespace Spyglass

theorem pcr_reingest_update {s : AppState} {now : Nat} {r : CrawlResult} {gt : List TagPair}
    {u : UrlT} {row : IndexedDocModel} (hu : parseUrl r.url = some u)
    (hrows : s.registry.rows = [row]) (hrow : row.url = r.url) :
    process_crawl_results s now [r] gt = .ok
      (⟨0, 1⟩,
       { s with
         registry :=
           ⟨[{ row with updated_at := now }], s.registry.nextPk,
            (((_get_tag_ids (_get_tag_ids s.tagDb gt []).tagDb r.tags
                  (_get_tag_ids s.tagDb gt []).cache).tids
                ++ (_get_tag_ids s.tagDb gt []).tids).foldl
              (fun j t => insertJoin j (row.id, t)) s.registry.tagJoins)⟩,
         tagDb := (_get_tag_ids (_get_tag_ids s.tagDb gt []).tagDb r.tags
           (_get_tag_ids s.tagDb gt []).cache).tagDb,
         index :=
           ⟨(s.index.docs.filter fun e => !([row.doc_id].contains e.1)).filter
               (fun e => e.1 != row.doc_id)
              ++ [(row.doc_id,
                   ⟨r.title.getD "", (u.host).getD "", u.text, r.content.getD "",
                    (_get_tag_ids (_get_tag_ids s.tagDb gt []).tagDb r.tags
                        (_get_tag_ids s.tagDb gt []).cache).tids
                      ++ (_get_tag_ids s.tagDb gt []).tids⟩)],
            s.index.nextId⟩,
         embeddingQueue := s.embeddingQueue
           ++ (match r.content with
               | some c => if s.embeddingConfigured
                   then [(row.doc_id, row.id, c)] else []
               | none => []) },
       (_get_tag_ids s.tagDb gt []).trace
         ++ (_get_tag_ids (_get_tag_ids s.tagDb gt []).tagDb r.tags
              (_get_tag_ids s.tagDb gt []).cache).trace) := by
  have hut := parseUrl_text hu
  have hexist : s.registry.findByUrls (List.map (fun x => x.url) [r]) = [row] := by
    simp [Registry.findByUrls, hrows, hrow]
  rw [process_crawl_results]
  simp only [List.isEmpty_cons, Bool.false_eq_true, if_false, hexist, mkIdMap, mkModelMap,
    List.foldl_cons, List.foldl_nil, List.map_cons, List.map_nil, List.nil_append]
  rw [ingestLoop, hu]
  have hexist2 : s.registry.findByUrls [r.url] = [row] := by
    simp [Registry.findByUrls, hrows, hrow]
  cases hc : r.content with
  | none =>
    simp [initIngestAcc, hexist2, lookupAssocStr, SearchIndex.upsert, SearchIndex.deleteManyById,
      ingestLoop, pcrFinish, Registry.insertMany, applyUpdates, applyAdded, Registry.findByUrls,
      Registry.insertTagsForDocs, Registry.saveRow, hrow, hrows, hut, List.find?]
  | some c =>
    cases hcfg : s.embeddingConfigured with
    | false =>
      simp [initIngestAcc, hexist2, lookupAssocStr, SearchIndex.upsert,
        SearchIndex.deleteManyById, ingestLoop, pcrFinish, Registry.insertMany, applyUpdates,
        applyAdded, Registry.findByUrls, Registry.insertTagsForDocs, Registry.saveRow, hrow,
        hrows, hut, List.find?, hcfg]
    | true =>
      simp [initIngestAcc, hexist2, lookupAssocStr, SearchIndex.upsert,
        SearchIndex.deleteManyById, ingestLoop, pcrFinish, Registry.insertMany, applyUpdates,
        applyAdded, Registry.findByUrls, Registry.insertTagsForDocs, Registry.saveRow, hrow,
        hrows, hut, List.find?, hcfg]

end Spyglass

namespace Spyglass

/-! ### Join-table idempotence -/

theorem insertJoin_mono {j : List (Nat × Nat)} {x : Nat × Nat} (y : Nat × Nat)
    (h : x ∈ j) : x ∈ insertJoin j y := by
  unfold insertJoin
  by_cases hy : j.contains y
  · rwa [if_pos hy]
  · rw [if_neg hy]
    exact List.mem_append_left _ h

theorem joinsFold_mono {pk : Nat} (tids : List Nat) :
    ∀ (j : List (Nat × Nat)) (x : Nat × Nat), x ∈ j →
      x ∈ tids.foldl (fun j2 t => insertJoin j2 (pk, t)) j := by
  induction tids with
  | nil => intro j x h; exact h
  | cons t ts ih =>
    intro j x h
    rw [List.foldl_cons]
    exact ih _ x (insertJoin_mono _ h)

theorem joinsFold_covers {pk : Nat} (tids : List Nat) :
    ∀ (j : List (Nat × Nat)) (t : Nat), t ∈ tids →
      (pk, t) ∈ tids.foldl (fun j2 t2 => insertJoin j2 (pk, t2)) j := by
  induction tids with
  | nil => intro j t h; exact absurd h (List.not_mem_nil t)
  | cons t0 ts ih =>
    intro j t h
    rw [List.foldl_cons]
    rcases List.mem_cons.1 h with rfl | hmem
    · apply joinsFold_mono
      unfold insertJoin
      by_cases hy : j.contains (pk, t)
      · rw [if_pos hy]
        exact List.elem_iff.1 hy
      · rw [if_neg hy]
        exact List.mem_append_right _ (List.mem_singleton.2 rfl)
    · exact ih _ t hmem

theorem joinsFold_idem {pk : Nat} (tids : List Nat) :
    ∀ (j : List (Nat × Nat)), (∀ t ∈ tids, (pk, t) ∈ j) →
      tids.foldl (fun j2 t => insertJoin j2 (pk, t)) j = j := by
  induction tids with
  | nil => intro j _; rfl
  | cons t ts ih =>
    intro j hall
    rw [List.foldl_cons]
    have hmem : (pk, t) ∈ j := hall t (List.mem_cons_self t ts)
    have hins : insertJoin j (pk, t) = j := by
      unfold insertJoin
      rw [if_pos (List.elem_iff.2 hmem)]
    rw [hins]
    exact ih j fun t2 ht2 => hall t2 (List.mem_cons_of_mem t ht2)

end Spyglass

namespace Spyglass

/-! ### Re-ingesting the same crawl result -/

theorem pcr_reingest_main (cfg : Bool) (r : CrawlResult) (gt : List TagPair)
    (t1 t2 : Nat) (u : UrlT) (hu : parseUrl r.url = some u) :
    ∃ res1 s1 tr1 res2 s2 tr2,
      process_crawl_results (initState cfg) t1 [r] gt = .ok (res1, s1, tr1) ∧
      process_crawl_results s1 t2 [r] gt = .ok (res2, s2, tr2) ∧
      res2.num_added = 0 ∧ res2.num_updated = 1 ∧
      s2.index = s1.index ∧ s2.tagDb = s1.tagDb ∧
      s2.registry.tagJoins = s1.registry.tagJoins ∧
      s2.registry.nextPk = s1.registry.nextPk ∧
      s2.registry.rows = s1.registry.rows.map (fun m => { m with updated_at := t2 }) ∧
      ∃ dups, s2.embeddingQueue = s1.embeddingQueue ++ dups ∧
        ∀ x ∈ dups, x ∈ s1.embeddingQueue := by
  have hut := parseUrl_text hu
  have hempty : (initState cfg).registry.findByUrls [r.url] = [] := rfl
  have h1 := @pcr_first_insert (initState cfg) t1 _ gt _ hu hempty
  set g1 := _get_tag_ids (initState cfg).tagDb gt [] with hg1def
  set ro1 := _get_tag_ids g1.tagDb r.tags g1.cache with hro1def
  -- the state after the first run
  set row1 : IndexedDocModel :=
    ⟨1, (u.host).getD "", u.text, r.open_url, genDocId 0, t1⟩ with hrow1def
  set doc1 : IndexDoc :=
    ⟨r.title.getD "", (u.host).getD "", u.text, r.content.getD "",
     ro1.tids ++ g1.tids⟩ with hdoc1def
  set q1 : List (String × Nat × String) :=
    (match r.content with
     | some c => if cfg then [(genDocId 0, 1, c)] else []
     | none => []) with hq1def
  set joins1 : List (Nat × Nat) :=
    ((ro1.tids ++ g1.tids).foldl (fun j t => insertJoin j (1, t)) []) with hjoins1def
  set s1v : AppState :=
    ⟨⟨[row1], 2, joins1⟩, ro1.tagDb, ⟨[(genDocId 0, doc1)], 1⟩, q1, cfg⟩ with hs1def
  have h1v : process_crawl_results (initState cfg) t1 [r] gt
      = .ok (⟨1, 0⟩, s1v, g1.trace ++ ro1.trace) := by
    rw [h1]
    rfl
  -- replay equalities for the second run
  have hext1 : TagDbExtends g1.tagDb ro1.tagDb := getTagIds_extends g1.tagDb r.tags g1.cache
  have hg2 : _get_tag_ids ro1.tagDb gt [] = ⟨g1.tids, g1.cache, ro1.tagDb, g1.trace⟩ :=
    getTagIds_replay hext1
  have hro2 : _get_tag_ids ro1.tagDb r.tags g1.cache
      = ⟨ro1.tids, ro1.cache, ro1.tagDb, ro1.trace⟩ :=
    getTagIds_replay (by rw [← hro1def]; exact tagDbExtends_refl ro1.tagDb)
  have hrows1 : s1v.registry.rows = [row1] := rfl
  have hrowurl : row1.url = r.url := hut
  have h2 := @pcr_reingest_update s1v t2 _ gt _ _ hu hrows1 hrowurl
  have hdb1 : s1v.tagDb = ro1.tagDb := rfl
  rw [hdb1, hg2] at h2
  simp only at h2
  rw [hro2] at h2
  simp only at h2
  refine ⟨⟨1, 0⟩, s1v, g1.trace ++ ro1.trace, ⟨0, 1⟩, _, _, h1v, h2, rfl, rfl, ?_, ?_, ?_, ?_,
    ?_, ?_⟩
  · -- index
    show (⟨(s1v.index.docs.filter fun e => !([row1.doc_id].contains e.1)).filter
          (fun e => e.1 != row1.doc_id)
        ++ [(row1.doc_id,
             ⟨r.title.getD "", (u.host).getD "", u.text, r.content.getD "",
              ro1.tids ++ g1.tids⟩)], s1v.index.nextId⟩ : SearchIndex) = s1v.index
    simp [hs1def, hrow1def, hdoc1def]
  · -- tag table
    rfl
  · -- joins
    show ((ro1.tids ++ g1.tids).foldl (fun j t => insertJoin j (row1.id, t))
        s1v.registry.tagJoins) = s1v.registry.tagJoins
    have : row1.id = 1 := rfl
    rw [this]
    show ((ro1.tids ++ g1.tids).foldl (fun j t => insertJoin j (1, t)) joins1) = joins1
    apply joinsFold_idem
    intro t ht
    rw [hjoins1def]
    exact joinsFold_covers _ _ t ht
  · -- next primary key
    rfl
  · -- rows
    rfl
  · -- embedding queue
    refine ⟨(match r.content with
             | some c => if s1v.embeddingConfigured then [(row1.doc_id, row1.id, c)] else []
             | none => []), rfl, ?_⟩
    intro x hx
    have hcfg : s1v.embeddingConfigured = cfg := rfl
    rw [hcfg] at hx
    cases hc : r.content with
    | none =>
      simp only [hc] at hx
      exact absurd hx (List.not_mem_nil x)
    | some c =>
      simp only [hc] at hx
      by_cases hb : cfg
      · rw [if_pos hb] at hx
        show x ∈ q1
        rw [hq1def]
        simp only [hc, if_pos hb]
        simpa using hx
      · rw [if_neg hb] at hx
        exact absurd hx (List.not_mem_nil x)

end Spyglass

namespace Spyglass

/-! ### Per-record skipping in `process_records` -/

theorem parseUrl_empty : parseUrl "" = none := rfl

theorem recordsLoop_skips (idMap : List (String × String)) (tagList : List Nat) :
    ∀ (results : List ParseRecord) (acc : RecordsAcc),
      recordsLoop idMap tagList results acc
        = recordsLoop idMap tagList (results.filter recordParses) acc := by
  intro results
  induction results with
  | nil => intro acc; rfl
  | cons rec rest ih =>
    intro acc
    cases hcu : rec.canonical_url with
    | none =>
      have hfp : recordParses rec = false := by simp [recordParses, hcu]
      rw [recordsLoop, hcu, List.filter_cons, hfp]
      simp only [Bool.false_eq_true, if_false]
      exact ih acc
    | some cu =>
      cases hp : parseUrl cu with
      | none =>
        have hfp : recordParses rec = false := by simp [recordParses, hcu, hp]
        rw [recordsLoop, hcu, List.filter_cons, hfp]
        simp only [Bool.false_eq_true, if_false, hp]
        exact ih acc
      | some u =>
        have hfp : recordParses rec = true := by simp [recordParses, hcu, hp]
        rw [recordsLoop, hcu, List.filter_cons, hfp]
        simp only [if_true]
        rw [recordsLoop, hcu]
        simp only [hp]
        cases hl : (lookupAssocStr idMap
            ((acc.index.upsert (lookupAssocStr idMap cu)
              ⟨rec.title.getD "", (u.host).getD "", u.text, rec.content, tagList⟩).1)).isSome with
        | true => simp only [hl, if_true]; exact ih _
        | false => simp only [hl, Bool.false_eq_true, if_false]; exact ih _

theorem process_records_parse_skip {s : AppState} {lt : List TagPair}
    {results : List ParseRecord}
    (hwf : ∀ m ∈ s.registry.rows, (parseUrl m.url).isSome) :
    process_records s lt results = process_records s lt (results.filter recordParses) ∧
      ∃ out, process_records s lt results = .ok out := by
  have hex : s.registry.findByUrls (results.map fun r => r.canonical_url.getD "")
      = s.registry.findByUrls
          ((results.filter recordParses).map fun r => r.canonical_url.getD "") := by
    unfold Registry.findByUrls
    apply List.filter_congr
    intro m hm
    have hmp := hwf m hm
    cases hc2 : (((results.filter recordParses).map fun r => r.canonical_url.getD "").contains
        m.url) with
    | true =>
      obtain ⟨rec, hrec, hurl⟩ := List.mem_map.1 (List.elem_iff.1 hc2)
      have hrecmem : rec ∈ results := (List.mem_filter.1 hrec).1
      apply List.elem_iff.2
      exact List.mem_map.2 ⟨rec, hrecmem, hurl⟩
    | false =>
      cases hc1 : ((results.map fun r => r.canonical_url.getD "").contains m.url) with
      | false => rfl
      | true =>
        exfalso
        obtain ⟨rec, hrec, hurl⟩ := List.mem_map.1 (List.elem_iff.1 hc1)
        have hsome : rec.canonical_url = some m.url := by
          cases hcu : rec.canonical_url with
          | none =>
            rw [hcu] at hurl
            simp only [Option.getD_none] at hurl
            rw [← hurl] at hmp
            rw [parseUrl_empty] at hmp
            exact absurd hmp (by simp)
          | some cu =>
            rw [hcu] at hurl
            simp only [Option.getD_some] at hurl
            rw [hurl]
        have hparses : recordParses rec = true := by
          simp only [recordParses, hsome]
          exact hmp
        have : m.url ∈ (results.filter recordParses).map fun r => r.canonical_url.getD "" := by
          apply List.mem_map.2
          refine ⟨rec, List.mem_filter.2 ⟨hrec, hparses⟩, ?_⟩
          rw [hsome]
          rfl
        have hcontr : (List.map (fun r => r.canonical_url.getD "")
            (List.filter recordParses results)).contains m.url = true :=
          List.elem_iff.2 this
        rw [hc2] at hcontr
        exact absurd hcontr (by simp)
  constructor
  · simp only [process_records]
    rw [hex, recordsLoop_skips]
  · exact ⟨_, rfl⟩

end Spyglass

namespace Spyglass

/-! ### Index upsert/delete lookup lemmas -/

theorem find?_filter_ne (i x : String) (hx : x ≠ i) :
    ∀ l : List (String × IndexDoc),
      (l.filter fun e => e.1 != i).find? (fun e => e.1 == x)
        = l.find? (fun e => e.1 == x) := by
  intro l
  induction l with
  | nil => rfl
  | cons e es ih =>
    rw [List.filter_cons]
    by_cases hk : (e.1 != i) = true
    · rw [if_pos hk]
      rw [List.find?, List.find?]
      cases he : (e.1 == x) with
      | true => rfl
      | false => exact ih
    · have hk2 : (e.1 != i) = false := by
        cases h2 : (e.1 != i) with
        | true => exact absurd h2 hk
        | false => rfl
      rw [hk2]
      simp only [Bool.false_eq_true, if_false]
      have hei : e.1 = i := by simpa using hk2
      have hne : (e.1 == x) = false := by
        rw [hei]
        simp only [beq_eq_false_iff_ne]
        exact fun h => hx h.symm
      rw [List.find?, hne]
      exact ih

theorem findDoc_upsert_self (ix : SearchIndex) (i : String) (d : IndexDoc) :
    ((ix.upsert (some i) d).2).findDoc i = some d := by
  unfold SearchIndex.upsert SearchIndex.findDoc
  simp only
  have hleft : (ix.docs.filter fun e => e.1 != i).find? (fun e => e.1 == i) = none := by
    rw [List.find?_eq_none]
    intro e he
    have := (List.mem_filter.1 he).2
    simpa using this
  rw [find?_append_none _ _ hleft]
  simp

theorem findDoc_upsert_ne (ix : SearchIndex) (i : String) (d : IndexDoc) (x : String)
    (hx : x ≠ i) : ((ix.upsert (some i) d).2).findDoc x = ix.findDoc x := by
  unfold SearchIndex.upsert SearchIndex.findDoc
  simp only
  cases hfe : ix.docs.find? (fun e => e.1 == x) with
  | some a =>
    rw [← find?_filter_ne i x hx] at hfe
    rw [find?_append_some _ _ hfe]
  | none =>
    rw [← find?_filter_ne i x hx] at hfe
    rw [find?_append_none _ _ hfe]
    have : ((i, d).1 == x) = false := by
      simp only [beq_eq_false_iff_ne]
      exact fun h => hx h.symm
    rw [List.find?_cons_of_neg _ (by simp [this]), List.find?_nil]

theorem findDoc_delete_mem (ix : SearchIndex) (ids : List String) (d : String)
    (hd : d ∈ ids) : (ix.deleteManyById ids).findDoc d = none := by
  unfold SearchIndex.deleteManyById SearchIndex.findDoc
  simp only
  have hnone : ((ix.docs.filter fun e => !(ids.contains e.1)).find? fun e => e.1 == d)
      = none := by
    rw [List.find?_eq_none]
    intro e he hbeq
    have hmem := (List.mem_filter.1 he).2
    have he1 : e.1 = d := by simpa using hbeq
    rw [he1] at hmem
    have hcd : ids.contains d = true := List.elem_iff.2 hd
    rw [hcd] at hmem
    exact absurd hmem (by simp)
  rw [hnone]
  rfl

theorem upsertFold_ne {α : Type} (f : α → String) (g : α → IndexDoc) :
    ∀ (l : List α) (ix : SearchIndex) (d : String), (∀ e ∈ l, f e ≠ d) →
      (l.foldl (fun ix2 e => (ix2.upsert (some (f e)) (g e)).2) ix).findDoc d
        = ix.findDoc d := by
  intro l
  induction l with
  | nil => intro ix d _; rfl
  | cons e es ih =>
    intro ix d hne
    rw [List.foldl_cons]
    rw [ih _ d fun e2 he2 => hne e2 (List.mem_cons_of_mem e he2)]
    exact findDoc_upsert_ne ix (f e) (g e) d
      fun h => hne e (List.mem_cons_self e es) h.symm

theorem upsertFold_mem {α : Type} (f : α → String) (g : α → IndexDoc) :
    ∀ (l : List α) (ix : SearchIndex) (e : α), e ∈ l → (l.map f).Nodup →
      (l.foldl (fun ix2 e2 => (ix2.upsert (some (f e2)) (g e2)).2) ix).findDoc (f e)
        = some (g e) := by
  intro l
  induction l with
  | nil => intro ix e he _; exact absurd he (List.not_mem_nil e)
  | cons e0 es ih =>
    intro ix e he hnd
    rw [List.map_cons, List.nodup_cons] at hnd
    rw [List.foldl_cons]
    rcases List.mem_cons.1 he with rfl | hmem
    · rw [upsertFold_ne f g es _ (f e) ?hne]
      · exact findDoc_upsert_self ix (f e) (g e)
      · intro e2 he2 heq
        exact hnd.1 (heq ▸ List.mem_map_of_mem f he2)
    · exact ih _ e hmem hnd.2

/-- The `tag_map` fold of `update_tags`: entries for the documents whose tag
fetch succeeds, keyed by doc id, most recent first. -/
theorem tagMapFold_eq (failFetch : List String) (reg : Registry)
    (documents : List RetrievedDocument) :
    documents.foldl
      (fun tm doc =>
        if failFetch.contains doc.doc_id then tm
        else (doc.doc_id, (doc, reg.getTagIdsByDocId doc.doc_id)) :: tm)
      ([] : List (String × (RetrievedDocument × List Nat)))
      = ((documents.filter fun doc => !(failFetch.contains doc.doc_id)).map
          (fun doc => (doc.doc_id, (doc, reg.getTagIdsByDocId doc.doc_id)))).reverse := by
  have hgen : ∀ (l : List RetrievedDocument)
      (a : List (String × (RetrievedDocument × List Nat))),
      l.foldl
        (fun tm doc =>
          if failFetch.contains doc.doc_id then tm
          else (doc.doc_id, (doc, reg.getTagIdsByDocId doc.doc_id)) :: tm) a
        = ((l.filter fun doc => !(failFetch.contains doc.doc_id)).map
            (fun doc => (doc.doc_id, (doc, reg.getTagIdsByDocId doc.doc_id)))).reverse
            ++ a := by
    intro l
    induction l with
    | nil => intro a; simp
    | cons doc ds ih =>
      intro a
      rw [List.foldl_cons, List.filter_cons]
      cases hc : failFetch.contains doc.doc_id with
      | true =>
        simp only [if_pos rfl, Bool.not_true, Bool.false_eq_true, if_false]
        exact ih a
      | false =>
        simp only [Bool.false_eq_true, if_false, Bool.not_false, if_true]
        rw [ih, List.map_cons, List.reverse_cons, List.append_assoc]
        simp
  rw [hgen]
  simp

end Spyglass

namespace Spyglass

/-! ### Re-indexing behaviour of `update_tags` -/

theorem update_tags_core (reg : Registry) (ix0 : SearchIndex) (failFetch : List String)
    (documents : List RetrievedDocument)
    (hnd : (documents.map (·.doc_id)).Nodup) (doc : RetrievedDocument)
    (hdoc : doc ∈ documents) :
    (failFetch.contains doc.doc_id = true →
      ((documents.foldl
          (fun tm doc2 =>
            if failFetch.contains doc2.doc_id then tm
            else (doc2.doc_id, (doc2, reg.getTagIdsByDocId doc2.doc_id)) :: tm)
          ([] : List (String × (RetrievedDocument × List Nat)))).foldl
        (fun ix e =>
          (ix.upsert (some e.2.1.doc_id)
            ⟨e.2.1.title, e.2.1.domain, e.2.1.url, e.2.1.content, e.2.2⟩).2)
        (ix0.deleteManyById (documents.map (·.doc_id)))).findDoc doc.doc_id
          = none) ∧
    (failFetch.contains doc.doc_id = false →
      ((documents.foldl
          (fun tm doc2 =>
            if failFetch.contains doc2.doc_id then tm
            else (doc2.doc_id, (doc2, reg.getTagIdsByDocId doc2.doc_id)) :: tm)
          ([] : List (String × (RetrievedDocument × List Nat)))).foldl
        (fun ix e =>
          (ix.upsert (some e.2.1.doc_id)
            ⟨e.2.1.title, e.2.1.domain, e.2.1.url, e.2.1.content, e.2.2⟩).2)
        (ix0.deleteManyById (documents.map (·.doc_id)))).findDoc doc.doc_id
          = some ⟨doc.title, doc.domain, doc.url, doc.content,
                  reg.getTagIdsByDocId doc.doc_id⟩) := by
  rw [tagMapFold_eq]
  have hmem_tm : ∀ e, e ∈ ((documents.filter fun doc2 => !(failFetch.contains doc2.doc_id)).map
      (fun doc2 => (doc2.doc_id, (doc2, reg.getTagIdsByDocId doc2.doc_id)))).reverse
      ↔ ∃ doc2, doc2 ∈ documents ∧ failFetch.contains doc2.doc_id = false ∧
          e = (doc2.doc_id, (doc2, reg.getTagIdsByDocId doc2.doc_id)) := by
    intro e
    rw [List.mem_reverse, List.mem_map]
    constructor
    · rintro ⟨doc2, hd2, rfl⟩
      have h1 := List.mem_filter.1 hd2
      refine ⟨doc2, h1.1, ?_, rfl⟩
      have := h1.2
      cases h2 : failFetch.contains doc2.doc_id with
      | true => rw [h2] at this; exact absurd this (by simp)
      | false => rfl
    · rintro ⟨doc2, hd2, hc2, rfl⟩
      exact ⟨doc2, List.mem_filter.2 ⟨hd2, by rw [hc2]; rfl⟩, rfl⟩
  constructor
  · intro hfail
    have hne : ∀ e ∈ ((documents.filter fun doc2 => !(failFetch.contains doc2.doc_id)).map
        (fun doc2 => (doc2.doc_id, (doc2, reg.getTagIdsByDocId doc2.doc_id)))).reverse,
        (fun (e : String × (RetrievedDocument × List Nat)) => e.2.1.doc_id) e
          ≠ doc.doc_id := by
      intro e he
      obtain ⟨doc2, hd2, hc2, rfl⟩ := (hmem_tm e).1 he
      intro heq
      simp only at heq
      have : doc2 = doc := List.inj_on_of_nodup_map hnd hd2 hdoc heq
      rw [this] at hc2
      rw [hfail] at hc2
      exact absurd hc2 (by simp)
    have h1 := upsertFold_ne
      (fun (e : String × (RetrievedDocument × List Nat)) => e.2.1.doc_id)
      (fun e => ⟨e.2.1.title, e.2.1.domain, e.2.1.url, e.2.1.content, e.2.2⟩)
      _ (ix0.deleteManyById (documents.map (·.doc_id))) doc.doc_id hne
    refine Eq.trans h1 ?_
    exact findDoc_delete_mem ix0 (documents.map (·.doc_id)) doc.doc_id
      (List.mem_map_of_mem _ hdoc)
  · intro hsucc
    have hmem : (doc.doc_id, (doc, reg.getTagIdsByDocId doc.doc_id))
        ∈ ((documents.filter fun doc2 => !(failFetch.contains doc2.doc_id)).map
          (fun doc2 => (doc2.doc_id, (doc2, reg.getTagIdsByDocId doc2.doc_id)))).reverse :=
      (hmem_tm _).2 ⟨doc, hdoc, hsucc, rfl⟩
    have hkeys : (((documents.filter fun doc2 => !(failFetch.contains doc2.doc_id)).map
        (fun doc2 => (doc2.doc_id, (doc2, reg.getTagIdsByDocId doc2.doc_id)))).reverse.map
          (fun (e : String × (RetrievedDocument × List Nat)) => e.2.1.doc_id)).Nodup := by
      rw [List.map_reverse, List.nodup_reverse, List.map_map]
      have heq : ((fun (e : String × (RetrievedDocument × List Nat)) => e.2.1.doc_id)
          ∘ (fun doc2 => (doc2.doc_id, (doc2, reg.getTagIdsByDocId doc2.doc_id))))
          = fun (doc2 : RetrievedDocument) => doc2.doc_id := rfl
      rw [heq]
      have hsub : ((documents.filter fun doc2 => !(failFetch.contains doc2.doc_id)).map
          (fun doc2 => doc2.doc_id)).Sublist (documents.map (·.doc_id)) :=
        (List.filter_sublist documents).map _
      exact hnd.sublist hsub
    exact upsertFold_mem
      (fun (e : String × (RetrievedDocument × List Nat)) => e.2.1.doc_id)
      (fun e => ⟨e.2.1.title, e.2.1.domain, e.2.1.url, e.2.1.content, e.2.2⟩)
      _ (ix0.deleteManyById (documents.map (·.doc_id))) _ hmem hkeys

end Spyglass

namespace Spyglass

theorem update_tags_reindex_main {s : AppState} {failFetch : List String}
    {documents : List RetrievedDocument} {mods : TagModification} {l : List TagPair}
    (hadd : mods.add = some l) (hl : l ≠ [])
    (hnd : (documents.map (·.doc_id)).Nodup) :
    ∃ s2, update_tags s failFetch documents mods = .ok s2 ∧
      (∀ doc ∈ documents, failFetch.contains doc.doc_id = true →
        s2.index.findDoc doc.doc_id = none) ∧
      (∀ doc ∈ documents, failFetch.contains doc.doc_id = false →
        s2.index.findDoc doc.doc_id
          = some ⟨doc.title, doc.domain, doc.url, doc.content,
                  s2.registry.getTagIdsByDocId doc.doc_id⟩) := by
  have haddne : ((_get_tag_ids_string s.tagDb l []).tids).isEmpty = false := by
    have hlen : (_get_tag_ids_string s.tagDb l []).tids.length = l.length :=
      getTagIds_length _ _ _
    cases h : ((_get_tag_ids_string s.tagDb l []).tids).isEmpty with
    | false => rfl
    | true =>
      rw [List.isEmpty_iff] at h
      rw [h] at hlen
      simp only [List.length_nil] at hlen
      exact absurd (List.length_eq_zero.1 hlen.symm) hl
  rw [update_tags]
  simp only [hadd, haddne, Bool.false_eq_true, if_false]
  cases hrem : mods.remove with
  | none =>
    simp only [List.isEmpty_nil, if_true]
    refine ⟨_, rfl, fun doc hdoc hfail => ?_, fun doc hdoc hsucc => ?_⟩
    · exact (update_tags_core _ _ failFetch documents hnd doc hdoc).1 hfail
    · exact (update_tags_core _ _ failFetch documents hnd doc hdoc).2 hsucc
  | some lr =>
    cases hre : ((_get_tag_ids_string (_get_tag_ids_string s.tagDb l []).tagDb lr
        (_get_tag_ids_string s.tagDb l []).cache).tids).isEmpty with
    | true =>
      simp only [hre, if_true]
      refine ⟨_, rfl, fun doc hdoc hfail => ?_, fun doc hdoc hsucc => ?_⟩
      · exact (update_tags_core _ _ failFetch documents hnd doc hdoc).1 hfail
      · exact (update_tags_core _ _ failFetch documents hnd doc hdoc).2 hsucc
    | false =>
      simp only [hre, Bool.false_eq_true, if_false]
      refine ⟨_, rfl, fun doc hdoc hfail => ?_, fun doc hdoc hsucc => ?_⟩
      · exact (update_tags_core _ _ failFetch documents hnd doc hdoc).1 hfail
      · exact (update_tags_core _ _ failFetch documents hnd doc hdoc).2 hsucc

end Spyglass

namespace Spyglass

/-! ## Claim theorems -/

/-- Claim C1 (code defect): after `update_tags` with `add = [("lens","x")]`
and `remove = [("lens","y")]` on a document with no tags, the document's
association set is empty — the remove step received the ids resolved from
`add` — whereas removing the resolved `remove` ids directly would leave
`(old ∪ add) \ remove = {1}`. -/
theorem update_tags_remove_step_uses_add_ids :
    (utState (update_tags oneDocState [] [oneDoc]
        { add := some [("lens", "x")], remove := some [("lens", "y")] })).map
      (fun st => st.registry.tagJoins) = some [] ∧
    ((oneDocState.registry.insertTagsForDocsById [1] [1]).removeTagsForDocsById
        [1] [2]).tagJoins = [(1, 1)] :=
  ⟨by decide, by decide⟩

/-- Claim C2 (counterexample): in `process_crawl_results` a crawl result
whose url fails to parse aborts the whole call with an error, so the later
results of the batch are not processed. -/
theorem process_crawl_results_url_parse_abort :
    process_crawl_results (initState false) 0 [badCrawl, goodCrawl] []
      = .error "unable to parse url: nota url" := by decide

/-- Claim C2 (amended): it is `process_records` that skips a result whose
canonical url is missing or unparseable, with a logged warning, while
processing the remaining results of the batch; such a per-document error
never makes the call return an error. -/
theorem process_records_url_parse_skip (s : AppState) (lt : List TagPair)
    (results : List ParseRecord)
    (hwf : ∀ m ∈ s.registry.rows, (parseUrl m.url).isSome) :
    process_records s lt results = process_records s lt (results.filter recordParses) ∧
      ∃ out, process_records s lt results = .ok out :=
  process_records_parse_skip hwf

/-- Witness for the amended claim C2. -/
theorem process_records_url_parse_skip_witness :
    process_records oneDocState [] [dupRecord, badRecord]
        = process_records oneDocState [] ([dupRecord, badRecord].filter recordParses) ∧
      ∃ out, process_records oneDocState [] [dupRecord, badRecord] = .ok out :=
  process_records_url_parse_skip oneDocState [] [dupRecord, badRecord] (by decide)

/-- Claim C3 (counterexample): processing the same crawl result twice does
not leave the stores in the same state as processing it once — on the
second call `updated_at` advances and the embedding queue gains a duplicate
row. -/
theorem process_crawl_results_reingest_cex :
    ((pcrState (process_crawl_results (initState true) 0 [reCrawl] [])).map
        (fun s1 => (pcrState (process_crawl_results s1 1 [reCrawl] [])).map
          (fun s2 => decide (s2 = s1))))
      = some (some false) := by decide

/-- Claim C3 (amended): re-processing the same crawl result returns
`num_added = 0` and `num_updated = 1`; the search index, the tag table and
the tag associations are identical; the registry rows are identical except
that `updated_at` advances to the second call's time; and the embedding
queue is extended only with duplicates of items it already holds. -/
theorem process_crawl_results_reingest (cfg : Bool) (r : CrawlResult) (gt : List TagPair)
    (t1 t2 : Nat) (u : UrlT) (hu : parseUrl r.url = some u) :
    ∃ res1 s1 tr1 res2 s2 tr2,
      process_crawl_results (initState cfg) t1 [r] gt = .ok (res1, s1, tr1) ∧
      process_crawl_results s1 t2 [r] gt = .ok (res2, s2, tr2) ∧
      res2.num_added = 0 ∧ res2.num_updated = 1 ∧
      s2.index = s1.index ∧ s2.tagDb = s1.tagDb ∧
      s2.registry.tagJoins = s1.registry.tagJoins ∧
      s2.registry.nextPk = s1.registry.nextPk ∧
      s2.registry.rows = s1.registry.rows.map (fun m => { m with updated_at := t2 }) ∧
      ∃ dups, s2.embeddingQueue = s1.embeddingQueue ++ dups ∧
        ∀ x ∈ dups, x ∈ s1.embeddingQueue :=
  pcr_reingest_main cfg r gt t1 t2 u hu

/-- Witness for the amended claim C3. -/
theorem process_crawl_results_reingest_witness :
    ∃ res1 s1 tr1 res2 s2 tr2,
      process_crawl_results (initState true) 0 [reCrawl] [] = .ok (res1, s1, tr1) ∧
      process_crawl_results s1 1 [reCrawl] [] = .ok (res2, s2, tr2) ∧
      res2.num_added = 0 ∧ res2.num_updated = 1 ∧
      s2.index = s1.index ∧ s2.tagDb = s1.tagDb ∧
      s2.registry.tagJoins = s1.registry.tagJoins ∧
      s2.registry.nextPk = s1.registry.nextPk ∧
      s2.registry.rows = s1.registry.rows.map (fun m => { m with updated_at := 1 }) ∧
      ∃ dups, s2.embeddingQueue = s1.embeddingQueue ++ dups ∧
        ∀ x ∈ dups, x ∈ s1.embeddingQueue :=
  process_crawl_results_reingest true reCrawl [] 0 1
    ⟨"https://a.test/x", some "a.test"⟩ (by decide)

/-- Claim C4 (code defect): `process_records` tests the upserted doc id
against the url-keyed `id_map`, so re-processing an already registered
canonical url stages a second registry row for that url: the registry goes
from one row with that url to two. -/
theorem process_records_duplicate_registry_row :
    (prState (process_records oneDocState [] [dupRecord])).map
        (fun st => (st.registry.rows.filter fun m => m.url == "https://a.test/x").length)
      = some 2 ∧
    (oneDocState.registry.rows.filter fun m => m.url == "https://a.test/x").length = 1 :=
  ⟨by decide, by decide⟩

/-- Claim C5 (counterexample): with the pair `("t","2")` cached as id 7 and
the pair `("t","1")` uncached (resolved to the fresh id 100), `_get_tag_ids`
returns `[7, 100]` — the cached id first — not the input order
`[100, 7]`. -/
theorem tag_ids_order_cex :
    (_get_tag_ids ⟨[], 100⟩ [("t", "1"), ("t", "2")] [("t:2", 7)]).tids = [7, 100] ∧
    cacheFind [("t:2", 7)] (uidOf ("t", "2")) = some 7 ∧
    (get_or_create_many ⟨[], 100⟩ [("t", "1")]).1.map (·.id) = [100] ∧
    ([7, 100] : List Nat) ≠ [100, 7] :=
  ⟨by decide, by decide, by decide, by decide⟩

/-- Claim C5 (amended): `_get_tag_ids` returns the ids of the pairs cached
at entry, in input order, followed by the ids `get_or_create_many` returns
for the uncached pairs, in input order; input order is preserved whenever
the pairs are all cached or all uncached, but not for mixtures. -/
theorem tag_ids_cached_first (db : TagDb) (ts : List TagPair) (c : TagCache) :
    (_get_tag_ids db ts c).tids
      = ts.filterMap (fun p => cacheFind c (uidOf p))
        ++ (get_or_create_many db
              (ts.filter fun p => (cacheFind c (uidOf p)).isNone)).1.map (·.id) :=
  getTagIds_tids db ts c

/-- Claim C6: on a well-formed state, `process_crawl_results` returns
`num_updated` equal to the number of registry rows that already existed for
the input urls before the call (`|existing|`), and `num_added` equal to the
number of reloaded newly inserted rows, which is the number of input
results whose url had no registry row. -/
theorem process_crawl_results_counters (s : AppState) (now : Nat)
    (results : List CrawlResult) (gt : List TagPair)
    (hwf : registryWf s.registry) (hfresh : docIdFresh s)
    (hparse : ∀ r ∈ results, (parseUrl r.url).isSome) :
    ∃ s2 tr, process_crawl_results s now results gt
      = .ok (⟨(results.filter fun r => !(s.registry.rows.any fun m => m.url == r.url)).length,
              (s.registry.rows.filter fun m => (results.map (·.url)).contains m.url).length⟩,
             s2, tr) :=
  pcr_counters_main hwf hfresh hparse

/-- Witness for claim C6. -/
theorem process_crawl_results_counters_witness :
    ∃ s2 tr, process_crawl_results oneDocStateFresh 7 [reCrawl, goodCrawl] []
      = .ok (⟨([reCrawl, goodCrawl].filter fun r =>
                !(oneDocStateFresh.registry.rows.any fun m => m.url == r.url)).length,
              (oneDocStateFresh.registry.rows.filter fun m =>
                (([reCrawl, goodCrawl]).map (·.url)).contains m.url).length⟩,
             s2, tr) :=
  process_crawl_results_counters oneDocStateFresh 7 [reCrawl, goodCrawl] []
    (by decide) (by decide) (by decide)

/-- Claim C7: within a single `process_crawl_results` batch, each distinct
tag pair appears in at most one `get_or_create_many` request of the
resolver trace, and the trace holds at most one request per resolver call
(one for the global tags plus one per crawl result). -/
theorem tag_resolver_single_roundtrip (s : AppState) (now : Nat)
    (results : List CrawlResult) (gt : List TagPair) (p : TagPair)
    (h : isOkE (process_crawl_results s now results gt) = true) :
    countSent (pcrTrace (process_crawl_results s now results gt)) p ≤ 1 ∧
      (pcrTrace (process_crawl_results s now results gt)).length ≤ results.length + 1 := by
  cases hE : process_crawl_results s now results gt with
  | error e =>
    rw [hE] at h
    exact absurd h (by simp [isOkE])
  | ok out =>
    rcases out with ⟨res, s2, tr⟩
    have h2 := pcr_roundtrip_aux hE p
    simpa [pcrTrace] using h2

/-- Witness for claim C7. -/
theorem tag_resolver_single_roundtrip_witness :
    countSent (pcrTrace (process_crawl_results (initState true) 0 [reCrawl, goodCrawl]
        [("g", "1")])) ("source", "x") ≤ 1 ∧
      (pcrTrace (process_crawl_results (initState true) 0 [reCrawl, goodCrawl]
        [("g", "1")])).length ≤ [reCrawl, goodCrawl].length + 1 :=
  tag_resolver_single_roundtrip (initState true) 0 [reCrawl, goodCrawl] [("g", "1")]
    ("source", "x") (by decide)

/-- Claim C8: for every document whose old-schema fields are present,
`migrate_document` produces exactly the entry `id = doc_id`,
`domain = old domain`, `title = old title`, `description = old description`,
`content = old description` (the stopgap duplication), and
`url = old url`. -/
theorem migrate_document_field_mapping (docId dom t d u : String) (oldDoc : TantivyDoc)
    (h1 : getFirst oldDoc "domain" = some dom) (h2 : getFirst oldDoc "title" = some t)
    (h3 : getFirst oldDoc "description" = some d) (h4 : getFirst oldDoc "url" = some u) :
    migrate_document docId oldDoc
      = some [("id", docId), ("domain", dom), ("title", t), ("description", d),
              ("content", d), ("url", u)] := by
  simp [migrate_document, migrationFieldMap, h1, h2, h3, h4]

/-- Witness for claim C8. -/
theorem migrate_document_field_mapping_witness :
    migrate_document "d1" oldSchemaDoc
      = some [("id", "d1"), ("domain", "a.test"), ("title", "T"), ("description", "D"),
              ("content", "D"), ("url", "https://a.test/1")] :=
  migrate_document_field_mapping "d1" "a.test" "T" "D" "https://a.test/1" oldSchemaDoc
    (by decide) (by decide) (by decide) (by decide)

/-- Claim C9: after a successful mutation, `update_tags` deletes every
supplied doc id from the index; a document whose tag fetch fails is not
restored (its id is absent from the final index), while a document whose
fetch succeeds is re-upserted with its stored fields and its current tag id
set. -/
theorem update_tags_reindex (s : AppState) (failFetch : List String)
    (documents : List RetrievedDocument) (mods : TagModification) (l : List TagPair)
    (hadd : mods.add = some l) (hl : l ≠ [])
    (hnd : (documents.map (·.doc_id)).Nodup) :
    ∃ s2, update_tags s failFetch documents mods = .ok s2 ∧
      (∀ doc ∈ documents, failFetch.contains doc.doc_id = true →
        s2.index.findDoc doc.doc_id = none) ∧
      (∀ doc ∈ documents, failFetch.contains doc.doc_id = false →
        s2.index.findDoc doc.doc_id
          = some ⟨doc.title, doc.domain, doc.url, doc.content,
                  s2.registry.getTagIdsByDocId doc.doc_id⟩) :=
  update_tags_reindex_main hadd hl hnd

/-- Witness for claim C9. -/
theorem update_tags_reindex_witness :
    ∃ s2, update_tags oneDocState ["zz"] [oneDoc]
        { add := some [("lens", "x")], remove := none } = .ok s2 ∧
      (∀ doc ∈ [oneDoc], (["zz"] : List String).contains doc.doc_id = true →
        s2.index.findDoc doc.doc_id = none) ∧
      (∀ doc ∈ [oneDoc], (["zz"] : List String).contains doc.doc_id = false →
        s2.index.findDoc doc.doc_id
          = some ⟨doc.title, doc.domain, doc.url, doc.content,
                  s2.registry.getTagIdsByDocId doc.doc_id⟩) :=
  update_tags_reindex oneDocState ["zz"] [oneDoc]
    { add := some [("lens", "x")], remove := none } [("lens", "x")] rfl (by decide)
    (by decide)

/-- Claim C10: `process_crawl_results` on an empty batch returns zero
counters, an empty resolver trace, and the unchanged state — no database or
index operation is performed. -/
theorem process_crawl_results_empty_batch (s : AppState) (now : Nat) (gt : List TagPair) :
    process_crawl_results s now [] gt = .ok (⟨0, 0⟩, s, []) := rfl

end Spyglass
